import Mathlib

/-!
Verification of the openedx-plugin-slots-browser data-collection scripts.

The TypeScript sources are shallow-embedded here: JS strings are modelled as
Lean `String` (a list of characters), and every string operation the scripts
use (`trim`, `split`, `startsWith`, regex tests with their exact backtracking
behaviour, ...) is defined from scratch over `List Char`, so that everything
is executable and provable.  Side effects (GitHub fetches, `Date.now`) are
modelled as explicit parameters: the `refExists` capability becomes a
`String → Bool` argument, timestamps become a `now : String` argument.
-/

namespace S2P

/-! ## JS string primitives -/

/-- JS `\s` / `trim` whitespace, restricted to the ASCII range actually
occurring in the harvested text files. -/
def jsWs (c : Char) : Bool :=
  c = ' ' || c = '\t' || c = '\n' || c = '\r' || c = '\x0b' || c = '\x0c'

/-- JS regex `\w`: ASCII letters, digits and underscore. -/
def wordChar (c : Char) : Bool :=
  ('a' ≤ c && c ≤ 'z') || ('A' ≤ c && c ≤ 'Z') || ('0' ≤ c && c ≤ '9') || c = '_'

def digitChar (c : Char) : Bool :=
  '0' ≤ c && c ≤ '9'

/-- ASCII lower-casing, as `String.prototype.toLowerCase` acts on the
ASCII headings handled here. -/
def lowerChar (c : Char) : Char :=
  if 'A' ≤ c && c ≤ 'Z' then Char.ofNat (c.toNat + 32) else c

def lowerL (l : List Char) : List Char := l.map lowerChar

/-- `String.prototype.trim` on a character list. -/
def jsTrimL (l : List Char) : List Char :=
  ((l.dropWhile jsWs).reverse.dropWhile jsWs).reverse

def jsTrim (s : String) : String := ⟨jsTrimL s.data⟩

/-- `String.prototype.split(sep)` for a one-character separator: every
occurrence splits, empty pieces are kept, the result is never empty. -/
def splitCharL (sep : Char) : List Char → List (List Char)
  | [] => [[]]
  | c :: cs =>
    match splitCharL sep cs with
    | [] => [[c]]
    | h :: t => if c = sep then [] :: h :: t else (c :: h) :: t

def jsSplit (sep : Char) (s : String) : List String :=
  (splitCharL sep s.data).map (fun l => ⟨l⟩)

/-- `content.split('\n')`. -/
def jsLines (s : String) : List String := jsSplit '\n' s

/-- Case-sensitive `String.prototype.startsWith` on lists. -/
def startsWithL : List Char → List Char → Bool
  | [], _ => true
  | _ :: _, [] => false
  | p :: ps, c :: cs => p = c && startsWithL ps cs

def startsWithS (s pre : String) : Bool := startsWithL pre.data s.data

/-- Case-insensitive prefix test (regex `i` flag). -/
def startsWithCIL (p l : List Char) : Bool := startsWithL (lowerL p) (lowerL l)

/-- `haystack.includes(needle)` on lists. -/
def containsSubL (needle : List Char) : List Char → Bool
  | [] => startsWithL needle []
  | c :: cs => startsWithL needle (c :: cs) || containsSubL needle cs

def containsSub (s needle : String) : Bool := containsSubL needle.data s.data

/-- `haystack.indexOf(needle)` on lists (`none` for JS `-1`). -/
def indexOfSubL (needle : List Char) : List Char → Option Nat
  | [] => if startsWithL needle [] then some 0 else none
  | c :: cs =>
    if startsWithL needle (c :: cs) then some 0
    else (indexOfSubL needle cs).map (· + 1)

/-- `s.slice(0, n)` / truncation to `n` characters. -/
def takeS (n : Nat) (s : String) : String := ⟨s.data.take n⟩

def dropS (n : Nat) (s : String) : String := ⟨s.data.drop n⟩

/-- `s.replace(/c/g, d)` for single characters. -/
def replaceAllChar (c d : Char) (s : String) : String :=
  ⟨s.data.map (fun x => if x = c then d else x)⟩

/-! ## Component Version Resolver: `cleanVersion`
(src/scripts/lib/requirements.ts, lines 116–128) -/

/-- A character stripped by `replace(/^[\^~>=<\s]*/, '')`. -/
def versionOpChar (c : Char) : Bool :=
  c = '^' || c = '~' || c = '>' || c = '=' || c = '<' || jsWs c

/-- The `cleaned.split('.')` step of `cleanVersion`. -/
def cvParts (versionSpec : String) : List (List Char) :=
  splitCharL '.' (jsTrimL (versionSpec.data.dropWhile versionOpChar))

/-- `parts[i] || '0'` — JS `||` falls back on a missing *or empty* component. -/
def cvComp (parts : List (List Char)) (i : Nat) : List Char :=
  if (parts.getD i []).isEmpty then ['0'] else parts.getD i []

/-- `cleanVersion` from src/scripts/lib/requirements.ts:
strip leading range operators/whitespace, trim, split on `.`, and
re-assemble `major.minor.patch` with `'0'` defaults and non-digits removed
from the patch component. -/
def cleanVersion (versionSpec : String) : String :=
  let parts := cvParts versionSpec
  ⟨cvComp parts 0 ++ '.' :: cvComp parts 1 ++ '.' :: (cvComp parts 2).filter digitChar⟩

/-! ### Facts about `splitCharL` -/

theorem splitCharL_ne_nil (sep : Char) (l : List Char) : splitCharL sep l ≠ [] := by
  cases l with
  | nil => simp [splitCharL]
  | cons c cs =>
    simp only [splitCharL]
    cases splitCharL sep cs with
    | nil => simp
    | cons h t => by_cases hc : c = sep <;> simp [hc]

theorem not_mem_splitCharL (sep : Char) (l : List Char) :
    ∀ p ∈ splitCharL sep l, sep ∉ p := by
  induction l with
  | nil => simp [splitCharL]
  | cons c cs ih =>
    simp only [splitCharL]
    cases hs : splitCharL sep cs with
    | nil => exact absurd hs (splitCharL_ne_nil sep cs)
    | cons h t =>
      have ihh : sep ∉ h := ih h (hs ▸ List.mem_cons_self h t)
      have iht : ∀ p ∈ t, sep ∉ p := fun p hp => ih p (hs ▸ List.mem_cons_of_mem h hp)
      by_cases hc : c = sep
      · simp only [hc, if_pos rfl]
        intro p hp
        rcases List.mem_cons.1 hp with h1 | h1
        · subst h1; simp
        · rcases List.mem_cons.1 h1 with h2 | h2
          · subst h2; exact ihh
          · exact iht p h2
      · simp only [if_neg hc]
        intro p hp
        rcases List.mem_cons.1 hp with h1 | h1
        · subst h1
          intro hmem
          rcases List.mem_cons.1 hmem with h2 | h2
          · exact hc h2.symm
          · exact ihh h2
        · exact iht p h1

theorem splitCharL_of_not_mem {sep : Char} {l : List Char} (h : sep ∉ l) :
    splitCharL sep l = [l] := by
  induction l with
  | nil => rfl
  | cons c cs ih =>
    have hc : ¬ c = sep := fun e => h (e ▸ List.mem_cons_self c cs)
    have hcs : sep ∉ cs := fun hm => h (List.mem_cons_of_mem c hm)
    simp only [splitCharL, ih hcs, if_neg hc]

theorem splitCharL_append {sep : Char} {m : List Char} (r : List Char) (h : sep ∉ m) :
    splitCharL sep (m ++ sep :: r) = m :: splitCharL sep r := by
  induction m with
  | nil =>
    simp only [List.nil_append, splitCharL]
    cases hs : splitCharL sep r with
    | nil => exact absurd hs (splitCharL_ne_nil sep r)
    | cons a t => simp
  | cons c cs ih =>
    have hc : ¬ c = sep := fun e => h (e ▸ List.mem_cons_self c cs)
    have hcs : sep ∉ cs := fun hm => h (List.mem_cons_of_mem c hm)
    simp only [List.cons_append, splitCharL, List.append_eq, ih hcs, if_neg hc]

theorem cvComp_not_dot {parts : List (List Char)} (h : ∀ p ∈ parts, '.' ∉ p) (i : Nat) :
    '.' ∉ cvComp parts i := by
  unfold cvComp
  split
  · simp
  · rcases lt_or_le i parts.length with hi | hi
    · have : parts.getD i [] ∈ parts := by
        rw [List.getD_eq_getElem parts [] hi]; exact List.getElem_mem hi
      exact h _ this
    · rw [List.getD_eq_default parts [] hi]; simp

/-! ### C3: version-range normalization -/

/-- C3: component-version normalization strips leading range operators and
reassembles exactly three dot-separated components — `'^1.2.3' ↦ '1.2.3'`,
`'~1.2' ↦ '1.2.0'`, `'1' ↦ '1.0.0'` — padding missing components with `'0'`
and keeping only digits in the patch component. -/
theorem cleanVersion_normalizes :
    cleanVersion "^1.2.3" = "1.2.3" ∧
    cleanVersion "~1.2" = "1.2.0" ∧
    cleanVersion "1" = "1.0.0" ∧
    ∀ versionSpec : String,
      (jsSplit '.' (cleanVersion versionSpec)).length = 3 ∧
      ((jsSplit '.' (cleanVersion versionSpec)).getD 2 "").data.all digitChar = true := by
  refine ⟨by decide, by decide, by decide, fun s => ?_⟩
  have hparts : ∀ p ∈ cvParts s, '.' ∉ p :=
    not_mem_splitCharL '.' (jsTrimL (s.data.dropWhile versionOpChar))
  have h0 : '.' ∉ cvComp (cvParts s) 0 := cvComp_not_dot hparts 0
  have h1 : '.' ∉ cvComp (cvParts s) 1 := cvComp_not_dot hparts 1
  have hP : ∀ ch ∈ (cvComp (cvParts s) 2).filter digitChar, digitChar ch = true :=
    fun c hc => (List.mem_filter.1 hc).2
  have h2 : '.' ∉ (cvComp (cvParts s) 2).filter digitChar :=
    fun hm => absurd (hP _ hm) (by decide)
  have hsplit : splitCharL '.' (cleanVersion s).data =
      [cvComp (cvParts s) 0, cvComp (cvParts s) 1, (cvComp (cvParts s) 2).filter digitChar] := by
    show splitCharL '.'
        (cvComp (cvParts s) 0 ++ '.' :: cvComp (cvParts s) 1 ++
          '.' :: (cvComp (cvParts s) 2).filter digitChar) = _
    rw [List.append_assoc, List.cons_append,
      splitCharL_append _ h0, splitCharL_append _ h1, splitCharL_of_not_mem h2]
  constructor
  · show ((splitCharL '.' (cleanVersion s).data).map (fun l => (⟨l⟩ : String))).length = 3
    rw [hsplit]
    rfl
  · show (((splitCharL '.' (cleanVersion s).data).map (fun l => (⟨l⟩ : String))).getD 2
        "").data.all digitChar = true
    rw [hsplit]
    exact List.all_eq_true.2 hP

/-! ## Release Resolver (src/scripts/lib/releases.ts)

The `refExists` GitHub capability (owner and repository are fixed at each
call site) is modelled as an explicit `refEx : String → Bool` argument. -/

structure Release where
  slug : String
  name : String
  deriving DecidableEq, Repr

def KNOWN_RELEASES : List Release :=
  [⟨"sumac", "Sumac"⟩, ⟨"teak", "Teak"⟩, ⟨"ulmo", "Ulmo"⟩]

def BRANCH_CANDIDATES (slug : String) : List String :=
  ["open-release/" ++ slug ++ ".master",
   "release/" ++ slug ++ ".master",
   "release/" ++ slug]

/-- The `for … if (exists) return candidate` loop shared by
`resolveEdxPlatformRef` and `resolveMfeRef`. -/
def resolveRefLoop (refEx : String → Bool) : List String → Option String
  | [] => none
  | c :: cs => if refEx c then some c else resolveRefLoop refEx cs

/-- `resolveEdxPlatformRef` from src/scripts/lib/releases.ts. -/
def resolveEdxPlatformRef (refEx : String → Bool) (slug : String) : Option String :=
  resolveRefLoop refEx (BRANCH_CANDIDATES slug)

theorem resolveRefLoop_eq_find? (refEx : String → Bool) (l : List String) :
    resolveRefLoop refEx l = l.find? refEx := by
  induction l with
  | nil => rfl
  | cons c cs ih =>
    by_cases h : refEx c <;> simp [resolveRefLoop, List.find?, h, ih]

theorem ne_of_data_ne {s t : String} (h : s.data ≠ t.data) : s ≠ t :=
  fun e => h (e ▸ rfl)

/-- C5: platform-revision resolution probes `open-release/{slug}.master`,
`release/{slug}.master`, `release/{slug}` in exactly that priority order and
returns the first existing candidate (`find?` over the ordered candidate
list), `none` when none exist; when only `release/{slug}` exists, exactly
that branch is returned. -/
theorem resolveEdxPlatformRef_priority :
    (∀ refEx slug, resolveEdxPlatformRef refEx slug = (BRANCH_CANDIDATES slug).find? refEx) ∧
    (∀ slug, BRANCH_CANDIDATES slug =
      ["open-release/" ++ slug ++ ".master", "release/" ++ slug ++ ".master",
       "release/" ++ slug]) ∧
    (∀ refEx slug, (∀ c ∈ BRANCH_CANDIDATES slug, refEx c = false) →
      resolveEdxPlatformRef refEx slug = none) ∧
    (∀ slug refEx, (∀ r, refEx r = true ↔ r = "release/" ++ slug) →
      resolveEdxPlatformRef refEx slug = some ("release/" ++ slug)) := by
  refine ⟨fun refEx slug => resolveRefLoop_eq_find? refEx _, fun _ => rfl, ?_, ?_⟩
  · intro refEx slug h
    simp only [resolveEdxPlatformRef, resolveRefLoop]
    rw [h _ (by simp [BRANCH_CANDIDATES]), h _ (by simp [BRANCH_CANDIDATES]),
      h _ (by simp [BRANCH_CANDIDATES])]
    rfl
  · intro slug refEx h
    have h1 : ¬ ("open-release/" ++ slug ++ ".master" = "release/" ++ slug) := by
      apply ne_of_data_ne
      simp only [String.data_append]
      intro e
      have := congrArg (fun l => l.headI) e
      simp [String.data] at this
    have h2 : ¬ ("release/" ++ slug ++ ".master" = "release/" ++ slug) := by
      apply ne_of_data_ne
      simp only [String.data_append]
      intro e
      have := congrArg List.length e
      simp at this
    have e1 : refEx ("open-release/" ++ slug ++ ".master") = false := by
      rcases Bool.eq_false_or_eq_true (refEx ("open-release/" ++ slug ++ ".master")) with ht | hf
      · exact absurd ((h _).1 ht) h1
      · exact hf
    have e2 : refEx ("release/" ++ slug ++ ".master") = false := by
      rcases Bool.eq_false_or_eq_true (refEx ("release/" ++ slug ++ ".master")) with ht | hf
      · exact absurd ((h _).1 ht) h2
      · exact hf
    have e3 : refEx ("release/" ++ slug) = true := (h _).2 rfl
    simp [resolveEdxPlatformRef, resolveRefLoop, BRANCH_CANDIDATES, e1, e2, e3]

/-- Witness for `resolveEdxPlatformRef_priority`: with only `release/sumac`
existing, resolution returns exactly `release/sumac`. -/
theorem resolveEdxPlatformRef_priority_witness :
    resolveEdxPlatformRef (fun r => r == "release/sumac") "sumac" = some "release/sumac" := by
  refine resolveEdxPlatformRef_priority.2.2.2 "sumac" _ (fun r => ?_)
  show (r == "release/sumac") = true ↔ r = "release/" ++ "sumac"
  rw [show ("release/" ++ "sumac" : String) = "release/sumac" from rfl]
  exact beq_iff_eq

/-! ## Plugin-Slot Extractor: `extractDescription`
(src/scripts/collect-plugins.ts, lines 417–440) -/

/-- `line.replace(/^#+\s*/, '')`: strip the leading run of `#` and the
whitespace following it; a line not starting with `#` is unchanged. -/
def stripHashWsL (l : List Char) : List Char :=
  match l with
  | '#' :: _ => (l.dropWhile (· = '#')).dropWhile jsWs
  | _ => l

/-- `line.replace(/^#+\s*/, '').trim().toLowerCase()` — the normalized
heading text of a (already trimmed) line. -/
def headingOf (line : String) : String :=
  ⟨lowerL (jsTrimL (stripHashWsL line.data))⟩

/-- The condition under which a raw line sets `descTitleFound`:
its trimmed form starts with `#` and its heading text is `description`. -/
def isDescriptionHeading (l : String) : Bool :=
  startsWithS (jsTrim l) "#" && headingOf (jsTrim l) == "description"

/-- The `for` loop of `extractDescription`, with `descTitleFound` as
explicit state.  A heading line whose text is `description` sets the flag
and continues; afterwards the first non-blank (trimmed) line is returned;
note that a line starting with `#` whose heading is not `description`
falls through to the non-blank check, exactly as in the source. -/
def extractDescLoop : List String → Bool → String
  | [], _ => ""
  | l :: ls, found =>
    let line := jsTrim l
    if startsWithS line "#" && headingOf line == "description" then
      extractDescLoop ls true
    else if found && !(line == "") then line
    else extractDescLoop ls found

/-- `extractDescription` from src/scripts/collect-plugins.ts:
scan the lines for a `description` heading, return the next non-blank
trimmed line, `slice(0, 200)`. -/
def extractDescription (content : String) : String :=
  takeS 200 (extractDescLoop (jsLines content) false)

theorem bool_if_false {α : Sort _} (a c : α) : (if (false : Bool) then a else c) = c := rfl

theorem bool_if_true {α : Sort _} (a c : α) : (if (true : Bool) then a else c) = a := rfl

theorem extractDescLoop_append_notfound (pre xs : List String)
    (h : ∀ l ∈ pre, isDescriptionHeading l = false) :
    extractDescLoop (pre ++ xs) false = extractDescLoop xs false := by
  induction pre with
  | nil => rfl
  | cons p ps ih =>
    have hp : isDescriptionHeading p = false := h p (List.mem_cons_self p ps)
    have hps : ∀ l ∈ ps, isDescriptionHeading l = false :=
      fun l hl => h l (List.mem_cons_of_mem p hl)
    simp only [List.cons_append, extractDescLoop]
    rw [show (startsWithS (jsTrim p) "#" && headingOf (jsTrim p) == "description") =
      isDescriptionHeading p from rfl, hp, Bool.false_and, bool_if_false, bool_if_false]
    exact ih hps

theorem extractDescLoop_append_blank (mid xs : List String)
    (h : ∀ l ∈ mid, jsTrim l = "") :
    extractDescLoop (mid ++ xs) true = extractDescLoop xs true := by
  induction mid with
  | nil => rfl
  | cons p ps ih =>
    have hp : jsTrim p = "" := h p (List.mem_cons_self p ps)
    have hps : ∀ l ∈ ps, jsTrim l = "" := fun l hl => h l (List.mem_cons_of_mem p hl)
    simp only [List.cons_append, extractDescLoop]
    rw [hp,
      show (startsWithS "" "#" && headingOf "" == "description") = false from rfl,
      bool_if_false,
      show (true && !(("" : String) == "")) = false from rfl,
      bool_if_false]
    exact ih hps

theorem extractDescLoop_all_notfound (ls : List String)
    (h : ∀ l ∈ ls, isDescriptionHeading l = false) :
    extractDescLoop ls false = "" := by
  induction ls with
  | nil => rfl
  | cons p ps ih =>
    have hp : isDescriptionHeading p = false := h p (List.mem_cons_self p ps)
    have hps : ∀ l ∈ ps, isDescriptionHeading l = false :=
      fun l hl => h l (List.mem_cons_of_mem p hl)
    simp only [extractDescLoop]
    rw [show (startsWithS (jsTrim p) "#" && headingOf (jsTrim p) == "description") =
      isDescriptionHeading p from rfl, hp, Bool.false_and, bool_if_false, bool_if_false]
    exact ih hps

/-- C1 (amended): after the first `description` heading (any number of `#`,
any case) and any run of blank lines, the first non-blank line `L` — provided
it is not itself a `description` heading — is returned *trimmed* and
truncated to 200 characters; with no `description` heading anywhere, the
result is the empty string. -/
theorem extractDescription_spec :
    (∀ (content : String) (pre : List String) (h : String) (mid : List String)
        (L : String) (rest : List String),
      jsLines content = pre ++ h :: (mid ++ L :: rest) →
      (∀ l ∈ pre, isDescriptionHeading l = false) →
      isDescriptionHeading h = true →
      (∀ l ∈ mid, jsTrim l = "") →
      jsTrim L ≠ "" →
      isDescriptionHeading L = false →
      extractDescription content = takeS 200 (jsTrim L)) ∧
    (∀ content : String,
      (∀ l ∈ jsLines content, isDescriptionHeading l = false) →
      extractDescription content = "") := by
  constructor
  · intro content pre h mid L rest hlines hpre hh hmid hL hLh
    unfold extractDescription
    rw [hlines, extractDescLoop_append_notfound pre _ hpre]
    have step1 : extractDescLoop (h :: (mid ++ L :: rest)) false =
        extractDescLoop (mid ++ L :: rest) true := by
      simp only [extractDescLoop]
      rw [show (startsWithS (jsTrim h) "#" && headingOf (jsTrim h) == "description") =
        isDescriptionHeading h from rfl, hh, bool_if_true]
    rw [step1, extractDescLoop_append_blank mid _ hmid]
    have step2 : extractDescLoop (L :: rest) true = jsTrim L := by
      have hne : (jsTrim L == "") = false := beq_eq_false_iff_ne.2 hL
      simp only [extractDescLoop]
      rw [show (startsWithS (jsTrim L) "#" && headingOf (jsTrim L) == "description") =
        isDescriptionHeading L from rfl, hLh, bool_if_false, hne,
        show (true && !false) = true from rfl, bool_if_true]
    rw [step2]
  · intro content h
    unfold extractDescription
    rw [extractDescLoop_all_notfound _ h]
    rfl

/-- C1 counterexample: in `"# Description\n x"` the next non-blank line after
the heading is `" x"`, but `extractDescription` returns the *trimmed* line
`"x"`, not `" x".slice(0, 200) = " x"` as the claim states. -/
theorem extractDescription_counterexample :
    extractDescription "# Description\n x" = "x" ∧
    jsLines "# Description\n x" = ["# Description", " x"] ∧
    ("x" : String) ≠ " x" :=
  ⟨by decide, by decide, by decide⟩

/-- Witness for `extractDescription_spec` at a concrete README. -/
theorem extractDescription_spec_witness :
    extractDescription "intro\n## DESCRIPTION\n\nHello world\nmore" = "Hello world" := by
  have := extractDescription_spec.1 "intro\n## DESCRIPTION\n\nHello world\nmore"
    ["intro"] "## DESCRIPTION" [""] "Hello world" ["more"]
    (by decide) (by decide) (by decide) (by decide) (by decide) (by decide)
  exact this

/-! ## Plugin-Slot Extractor: `hasExamples`
(src/scripts/collect-plugins.ts, line 388: `/^#+\s+examples?/im.test(readmeText)`) -/

/-- Matching `#+\s+examples?` at one position (the optional `s?` never
affects whether the test succeeds).  `#+` and `\s+` are maximal-munch here,
which coincides with full backtracking because the follow-up characters
(`\s` after `#+`, `e`/`E` after `\s+`) are excluded from the repeated
classes. -/
def examplesMatchAt (cs : List Char) : Bool :=
  let hs := cs.takeWhile (· == '#')
  let r1 := cs.dropWhile (· == '#')
  let ws := r1.takeWhile jsWs
  let r2 := r1.dropWhile jsWs
  !hs.isEmpty && (!ws.isEmpty && startsWithCIL "example".data r2)

/-- The `m`-flag scan: try the pattern at every line start (`atStart` is
true at position 0 and right after each `'\n'`). -/
def examplesScan : Bool → List Char → Bool
  | _, [] => false
  | atStart, c :: cs => (atStart && examplesMatchAt (c :: cs)) || examplesScan (c == '\n') cs

/-- `hasExamples` as computed by `parsePluginSlot`. -/
def hasExamples (text : String) : Bool := examplesScan true text.data

/-- The claim's own reading, written from its words: the text contains a
line that is a markdown heading whose heading text is exactly `example`
or `examples`, case-insensitively. -/
def claimHasExampleHeading (text : String) : Bool :=
  (jsLines text).any fun l =>
    startsWithS (jsTrim l) "#" &&
      (headingOf (jsTrim l) == "example" || headingOf (jsTrim l) == "examples")

theorem takeWhile_dropWhile_split (p : Char → Bool) :
    ∀ (xs ys : List Char), (∀ c ∈ xs, p c = true) →
    (∀ c, ys.head? = some c → p c = false) →
    (xs ++ ys).takeWhile p = xs ∧ (xs ++ ys).dropWhile p = ys := by
  intro xs
  induction xs with
  | nil =>
    intro ys _ hy
    cases ys with
    | nil => exact ⟨rfl, rfl⟩
    | cons c cs =>
      have : p c = false := hy c rfl
      simp [List.takeWhile, List.dropWhile, this]
  | cons x xs ih =>
    intro ys hx hy
    have hxx : p x = true := hx x (List.mem_cons_self x xs)
    have hxs : ∀ c ∈ xs, p c = true := fun c hc => hx c (List.mem_cons_of_mem x hc)
    have := ih ys hxs hy
    simp [List.takeWhile, List.dropWhile, hxx, this.1, this.2]

theorem jsWs_cases {c : Char} (h : jsWs c = true) :
    c = ' ' ∨ c = '\t' ∨ c = '\n' ∨ c = '\r' ∨ c = '\x0b' ∨ c = '\x0c' := by
  simp only [jsWs, Bool.or_eq_true, decide_eq_true_eq] at h
  tauto

theorem jsWs_ne_hash {c : Char} (h : jsWs c = true) : (c == '#') = false := by
  rcases jsWs_cases h with rfl | rfl | rfl | rfl | rfl | rfl <;> decide

theorem jsWs_ne_of_lower_e {c : Char} (h : lowerChar c = 'e') : jsWs c = false := by
  cases hws : jsWs c with
  | false => rfl
  | true =>
    exfalso
    rcases jsWs_cases hws with rfl | rfl | rfl | rfl | rfl | rfl <;>
      exact absurd h (by decide)

theorem ci_example_head {tail : List Char}
    (h : startsWithCIL "example".data tail = true) :
    ∀ c, tail.head? = some c → jsWs c = false := by
  intro c hc
  cases tail with
  | nil => simp at hc
  | cons t ts =>
    have ht : t = c := by simpa using hc
    subst ht
    simp only [startsWithCIL, lowerL, List.map_cons, startsWithL, Bool.and_eq_true,
      decide_eq_true_eq] at h
    have he : lowerChar t = 'e' := h.1.symm.trans (by rfl)
    exact jsWs_ne_of_lower_e he

theorem examplesMatchAt_iff (cs : List Char) :
    examplesMatchAt cs = true ↔
      ∃ hs ws tail, cs = hs ++ (ws ++ tail) ∧ hs ≠ [] ∧ (∀ c ∈ hs, (c == '#') = true) ∧
        ws ≠ [] ∧ (∀ c ∈ ws, jsWs c = true) ∧ startsWithCIL "example".data tail = true := by
  constructor
  · intro h
    simp only [examplesMatchAt, Bool.and_eq_true, Bool.not_eq_true'] at h
    obtain ⟨h1, h2, h3⟩ := h
    refine ⟨cs.takeWhile (· == '#'), (cs.dropWhile (· == '#')).takeWhile jsWs,
      (cs.dropWhile (· == '#')).dropWhile jsWs, ?_, ?_, ?_, ?_, ?_, h3⟩
    · rw [List.takeWhile_append_dropWhile, List.takeWhile_append_dropWhile]
    · simpa [List.isEmpty_iff] using h1
    · exact fun c hc => List.mem_takeWhile_imp (p := (· == '#')) hc
    · simpa [List.isEmpty_iff] using h2
    · exact fun c hc => List.mem_takeWhile_imp (p := jsWs) hc
  · rintro ⟨hs, ws, tail, rfl, hhs, hall, hws, hwall, htail⟩
    have hwhead : ∀ c, (ws ++ tail).head? = some c → (c == '#') = false := by
      intro c hc
      cases ws with
      | nil => exact absurd rfl hws
      | cons w wsr =>
        have : w = c := by simpa using hc
        subst this
        exact jsWs_ne_hash (hwall w (List.mem_cons_self w wsr))
    have split1 := takeWhile_dropWhile_split (· == '#') hs (ws ++ tail) hall hwhead
    have split2 := takeWhile_dropWhile_split jsWs ws tail hwall (ci_example_head htail)
    simp only [examplesMatchAt, split1.1, split1.2, split2.1, split2.2,
      Bool.and_eq_true, Bool.not_eq_true']
    refine ⟨?_, ?_, htail⟩
    · simpa [List.isEmpty_iff] using hhs
    · simpa [List.isEmpty_iff] using hws

theorem examplesScan_iff : ∀ (cs : List Char) (atStart : Bool),
    examplesScan atStart cs = true ↔
      ∃ pre suf, cs = pre ++ suf ∧
        ((pre = [] ∧ atStart = true) ∨ ∃ pre2, pre = pre2 ++ ['\n']) ∧
        examplesMatchAt suf = true := by
  intro cs
  induction cs with
  | nil =>
    intro atStart
    simp only [examplesScan]
    constructor
    · intro h; cases h
    · rintro ⟨pre, suf, he, _, hm⟩
      obtain ⟨rfl, rfl⟩ := List.append_eq_nil.1 he.symm
      cases hm
  | cons c cs ih =>
    intro atStart
    simp only [examplesScan, Bool.or_eq_true, Bool.and_eq_true]
    constructor
    · rintro (⟨hst, hm⟩ | hrec)
      · exact ⟨[], c :: cs, rfl, Or.inl ⟨rfl, hst⟩, hm⟩
      · obtain ⟨pre0, suf, heq, hcond, hm⟩ := (ih (c == '\n')).1 hrec
        rcases hcond with ⟨rfl, hnl⟩ | ⟨pre2, rfl⟩
        · have : c = '\n' := by simpa using hnl
          subst this
          exact ⟨['\n'], suf, by simpa using heq, Or.inr ⟨[], rfl⟩, hm⟩
        · exact ⟨c :: (pre2 ++ ['\n']), suf, by simp [heq], Or.inr ⟨c :: pre2, by simp⟩, hm⟩
    · rintro ⟨pre, suf, heq, hcond, hm⟩
      rcases hcond with ⟨rfl, hst⟩ | ⟨pre2, rfl⟩
      · left
        refine ⟨hst, ?_⟩
        simpa using heq ▸ hm
      · right
        cases pre2 with
        | nil =>
          simp only [List.nil_append, List.cons_append, List.nil_append] at heq
          injection heq with h1 h2
          subst h1
          exact (ih (('\n' : Char) == '\n')).2
            ⟨[], cs, rfl, Or.inl ⟨rfl, by decide⟩, by rw [h2]; exact hm⟩
        | cons d pre2' =>
          simp only [List.cons_append] at heq
          injection heq with h1 h2
          subst h1
          exact (ih (c == '\n')).2 ⟨pre2' ++ ['\n'], suf, h2, Or.inr ⟨pre2', rfl⟩, hm⟩

/-- C2 (amended): `hasExamples` is true iff at some line start the text has
one or more `#`, then one or more whitespace characters, then the letters
`example` in any case — a prefix test: the heading text need not *equal*
"example"/"examples", and a heading with no whitespace after the `#`s does
not count. -/
theorem hasExamples_spec (text : String) :
    hasExamples text = true ↔
      ∃ pre suf, text.data = pre ++ suf ∧
        (pre = [] ∨ ∃ pre2, pre = pre2 ++ ['\n']) ∧
        ∃ hs ws tail, suf = hs ++ (ws ++ tail) ∧ hs ≠ [] ∧
          (∀ c ∈ hs, (c == '#') = true) ∧ ws ≠ [] ∧ (∀ c ∈ ws, jsWs c = true) ∧
          startsWithCIL "example".data tail = true := by
  unfold hasExamples
  rw [examplesScan_iff]
  constructor
  · rintro ⟨pre, suf, heq, hcond, hm⟩
    refine ⟨pre, suf, heq, ?_, (examplesMatchAt_iff suf).1 hm⟩
    rcases hcond with ⟨h1, _⟩ | h2
    · exact Or.inl h1
    · exact Or.inr h2
  · rintro ⟨pre, suf, heq, hcond, hdecl⟩
    refine ⟨pre, suf, heq, ?_, (examplesMatchAt_iff suf).2 hdecl⟩
    rcases hcond with h1 | h2
    · exact Or.inl ⟨h1, rfl⟩
    · exact Or.inr h2

/-- C2 counterexample: `"## Examples of usage"` makes the code's
`hasExamples` true although it contains no heading whose *text* is
"example"/"examples" (its heading text is "examples of usage"). -/
theorem hasExamples_counterexample :
    hasExamples "## Examples of usage" = true ∧
    claimHasExampleHeading "## Examples of usage" = false ∧
    headingOf "## Examples of usage" = "examples of usage" :=
  ⟨by decide, by decide, by decide⟩

/-- Witness for `hasExamples_spec` at a concrete README. -/
theorem hasExamples_spec_witness : hasExamples "# example" = true := by
  refine (hasExamples_spec "# example").2
    ⟨[], "# example".data, rfl, Or.inl rfl, ['#'], [' '], "example".data, ?_, ?_, ?_, ?_, ?_, ?_⟩
  · decide
  · decide
  · decide
  · decide
  · decide
  · decide

/-! ## Dependency Pin Resolver: `resolvePinnedVersion`
(src/scripts/lib/requirements.ts, lines 16–45)

The three pin-notation regexes are embedded as matchers over the trimmed
line.  The repeated character classes are all followed by characters they
exclude, so maximal munch coincides with full backtracking; the one place
JS would backtrack — `={2,3}` trying 3 then 2 equals signs — is written
out explicitly. -/

/-- Regex class `[^\s;#]`. -/
def notWsSemiHash (c : Char) : Bool := !(jsWs c || c == ';' || c == '#')

/-- The tail of pattern (a) after consuming `k` equals signs:
`\s*([^\s;#]+)`. -/
def pinEqTail (r1 : List Char) (k : Nat) : Option (List Char) :=
  let cap := ((r1.drop k).dropWhile jsWs).takeWhile notWsSemiHash
  if cap.isEmpty then none else some cap

/-- Pattern (a) `^name\s*={2,3}\s*([^\s;#]+)` (flag `i`), returning the
captured version. -/
def pinEqMatch (name : String) (t : List Char) : Option (List Char) :=
  if startsWithCIL name.data t then
    let r1 := (t.drop name.data.length).dropWhile jsWs
    let eqs := (r1.takeWhile (· == '=')).length
    if 3 ≤ eqs then pinEqTail r1 3 <|> pinEqTail r1 2
    else if eqs = 2 then pinEqTail r1 2
    else none
  else none

/-- `https?://` after a consumed `git+http`: `s://` is preferred (greedy
`s?`), else `://`. -/
def httpTail (r : List Char) : Option (List Char) :=
  if startsWithCIL "s://".data r then some (r.drop 4)
  else if startsWithCIL "://".data r then some (r.drop 3)
  else none

/-- Pattern (b) `git\+https?://[^@]+@([^#]+)#egg=name` (flag `i`) tried at
one position. -/
def vcsMatchAt (name : String) (cs : List Char) : Option (List Char) :=
  if startsWithCIL "git+http".data cs then
    match httpTail (cs.drop 8) with
    | none => none
    | some r2 =>
      let host := r2.takeWhile (· != '@')
      if host.isEmpty then none
      else
        match r2.dropWhile (· != '@') with
        | '@' :: r4 =>
          let cap := r4.takeWhile (· != '#')
          if cap.isEmpty then none
          else
            match r4.dropWhile (· != '#') with
            | '#' :: r6 =>
              if startsWithCIL "egg=".data r6 && startsWithCIL name.data (r6.drop 4) then
                some cap
              else none
            | _ => none
        | _ => none
  else none

/-- Pattern (b) searched at every position, leftmost match wins. -/
def vcsScan (name : String) : List Char → Option (List Char)
  | [] => none
  | c :: cs => vcsMatchAt name (c :: cs) <|> vcsScan name cs

/-- Pattern (c) `^name\s*@\s*git\+https?://[^@]+@([^\s;#]+)` (flag `i`). -/
def pep440Match (name : String) (t : List Char) : Option (List Char) :=
  if startsWithCIL name.data t then
    match (t.drop name.data.length).dropWhile jsWs with
    | '@' :: r1 =>
      let r2 := r1.dropWhile jsWs
      if startsWithCIL "git+http".data r2 then
        match httpTail (r2.drop 8) with
        | none => none
        | some r4 =>
          let host := r4.takeWhile (· != '@')
          if host.isEmpty then none
          else
            match r4.dropWhile (· != '@') with
            | '@' :: r6 =>
              let cap := r6.takeWhile notWsSemiHash
              if cap.isEmpty then none else some cap
            | _ => none
      else none
    | _ => none
  else none

/-- `version.replace(/^v/, '')` — one leading lowercase `v` (the regex has
no `i` flag here). -/
def stripLeadingV (s : List Char) : List Char :=
  match s with
  | 'v' :: r => r
  | _ => s

structure Pin where
  version : String
  rawSpec : Option String
  deriving DecidableEq, Repr

/-- The per-line body of `resolvePinnedVersion`: patterns (a), (b), (c)
tried in that order on the trimmed line; (a) returns the capture verbatim
with no `rawSpec`, (b) and (c) return the capture with its single leading
`v` stripped and the trimmed line as `rawSpec`. -/
def resolvePinLine (packageName trimmed : String) : Option Pin :=
  match pinEqMatch packageName trimmed.data with
  | some cap => some ⟨⟨cap⟩, none⟩
  | none =>
    match vcsScan packageName trimmed.data with
    | some cap => some ⟨⟨stripLeadingV cap⟩, some trimmed⟩
    | none =>
      match pep440Match packageName trimmed.data with
      | some cap => some ⟨⟨stripLeadingV cap⟩, some trimmed⟩
      | none => none

/-- The line loop of `resolvePinnedVersion`: skip blank and `#` comment
lines, return the first line-level match. -/
def resolvePinnedVersionLines (packageName : String) : List String → Option Pin
  | [] => none
  | l :: ls =>
    let trimmed := jsTrim l
    if startsWithS trimmed "#" || trimmed == "" then
      resolvePinnedVersionLines packageName ls
    else
      match resolvePinLine packageName trimmed with
      | some p => some p
      | none => resolvePinnedVersionLines packageName ls

/-- `resolvePinnedVersion` on an already-fetched requirements document
(the fetch itself, and its `null → null` short-circuit, live outside the
embedded core). -/
def resolvePinnedVersion (packageName content : String) : Option Pin :=
  resolvePinnedVersionLines packageName (jsLines content)

/-- C4 counterexample: `openedx-filters==v5.1.0` is matched by the
exact-equality pin notation, and the returned version keeps its leading
`v` — it is *not* stripped for this notation. -/
theorem resolvePinnedVersion_counterexample :
    pinEqMatch "openedx-filters" "openedx-filters==v5.1.0".data = some "v5.1.0".data ∧
    resolvePinnedVersion "openedx-filters" "openedx-filters==v5.1.0" =
      some ⟨"v5.1.0", none⟩ ∧
    startsWithS "v5.1.0" "v" = true :=
  ⟨by decide, by decide, by decide⟩

/-- C4 (amended): the `v`-prefix stripping applies to the versions
extracted by the VCS-URL and PEP-508 notations (a single leading `v` is
removed); the exact/arbitrary-equality notation returns its matched
version verbatim. -/
theorem resolvePinLine_vstrip :
    (∀ (name t : String) (cap : List Char),
      pinEqMatch name t.data = some cap →
      resolvePinLine name t = some ⟨⟨cap⟩, none⟩) ∧
    (∀ (name t : String) (cap : List Char),
      pinEqMatch name t.data = none → vcsScan name t.data = some cap →
      resolvePinLine name t = some ⟨⟨stripLeadingV cap⟩, some t⟩) ∧
    (∀ (name t : String) (cap : List Char),
      pinEqMatch name t.data = none → vcsScan name t.data = none →
      pep440Match name t.data = some cap →
      resolvePinLine name t = some ⟨⟨stripLeadingV cap⟩, some t⟩) ∧
    (∀ l : List Char, stripLeadingV ('v' :: l) = l) ∧
    resolvePinnedVersion "openedx-events"
        "openedx-events @ git+https://example/repo@v9.0.0#egg=openedx-events" =
      some ⟨"9.0.0", some "openedx-events @ git+https://example/repo@v9.0.0#egg=openedx-events"⟩ := by
  refine ⟨?_, ?_, ?_, fun l => rfl, by decide⟩
  · intro name t cap h
    simp [resolvePinLine, h]
  · intro name t cap h1 h2
    simp [resolvePinLine, h1, h2]
  · intro name t cap h1 h2 h3
    simp [resolvePinLine, h1, h2, h3]

/-- Witness for `resolvePinLine_vstrip`: a VCS-pin line whose captured
version `va` comes back with the leading `v` stripped. -/
theorem resolvePinLine_vstrip_witness :
    resolvePinLine "x" "git+https://h@va#egg=x" = some ⟨"a", some "git+https://h@va#egg=x"⟩ := by
  have := resolvePinLine_vstrip.2.1 "x" "git+https://h@va#egg=x" "va".data
    (by decide) (by decide)
  exact this

/-! ## Release Orchestrator: `mergeManifestEntries`
(src/unnamed/part_001, lines 55–74, with `KNOWN_RELEASES` from
src/scripts/lib/releases.ts)

The JS `Map` built from entry lists keyed by `slug` is modelled as an
insertion-ordered list: `set` replaces in place when the key is present
and appends otherwise, which is exactly `Map`'s iteration-order
behaviour. -/

structure ReleaseManifestEntry where
  slug : String
  name : String
  edxPlatformRef : String
  filtersRef : Option String
  eventsRef : Option String
  deriving DecidableEq, Repr

/-- `Map.set` keyed by `slug` on an insertion-ordered entry list. -/
def setBySlug (m : List ReleaseManifestEntry) (e : ReleaseManifestEntry) :
    List ReleaseManifestEntry :=
  if m.any (fun x => x.slug == e.slug) then
    m.map (fun x => if x.slug == e.slug then e else x)
  else m ++ [e]

/-- `new Map(entries.map(e => [e.slug, e]))`. -/
def mapFromEntries (l : List ReleaseManifestEntry) : List ReleaseManifestEntry :=
  l.foldl setBySlug []

def knownOrder : List String := KNOWN_RELEASES.map (·.slug)

/-- `mergeManifestEntries` from src/unnamed/part_001: build the slug-keyed
map from `existing`, overwrite with `updated`, then emit the known releases
in `KNOWN_RELEASES` order followed by the unknown ones sorted ascending by
slug (`localeCompare` on these ASCII slugs coincides with lexicographic
order). -/
def mergeManifestEntries (existing updated : List ReleaseManifestEntry) :
    List ReleaseManifestEntry :=
  let bySlug := updated.foldl setBySlug (mapFromEntries existing)
  let orderedKnown := knownOrder.filterMap (fun s => bySlug.find? (fun e => e.slug == s))
  let unknown := (bySlug.filter (fun e => !knownOrder.contains e.slug)).insertionSort
    (fun a b => a.slug ≤ b.slug)
  orderedKnown ++ unknown

theorem slugs_setBySlug (m : List ReleaseManifestEntry) (e : ReleaseManifestEntry) :
    (setBySlug m e).map (·.slug) = if m.any (fun x => x.slug == e.slug) then m.map (·.slug)
      else m.map (·.slug) ++ [e.slug] := by
  unfold setBySlug
  split
  · rw [List.map_map]
    apply List.map_congr_left
    intro x _
    by_cases hx : x.slug = e.slug <;> simp [hx]
  · simp

theorem nodup_slugs_setBySlug {m : List ReleaseManifestEntry} {e : ReleaseManifestEntry}
    (h : (m.map (·.slug)).Nodup) :
    ((setBySlug m e).map (·.slug)).Nodup := by
  rw [slugs_setBySlug]
  split
  · exact h
  · next hany =>
    have : e.slug ∉ m.map (·.slug) := by
      intro hmem
      obtain ⟨x, hx, hxs⟩ := List.mem_map.1 hmem
      exact hany (List.any_eq_true.2 ⟨x, hx, by simp [hxs]⟩)
    simp [List.nodup_append, h, this]

theorem mapFromEntries_eq_self {l : List ReleaseManifestEntry}
    (h : (l.map (·.slug)).Nodup) : mapFromEntries l = l := by
  suffices H : ∀ (acc l : List ReleaseManifestEntry),
      ((acc.map (·.slug) ++ l.map (·.slug)).Nodup) → l.foldl setBySlug acc = acc ++ l by
    have := H [] l (by simpa using h)
    simpa [mapFromEntries] using this
  intro acc l
  induction l generalizing acc with
  | nil => intro _; simp
  | cons e es ih =>
    intro hN
    have heacc : e.slug ∉ acc.map (·.slug) := by
      have := (List.nodup_append.1 hN).2.2
      intro hmem
      exact this hmem (by simp)
    have hany : acc.any (fun x => x.slug == e.slug) = false := by
      rw [Bool.eq_false_iff]
      intro hax
      obtain ⟨x, hx, hxs⟩ := List.any_eq_true.1 hax
      exact heacc (List.mem_map.2 ⟨x, hx, by simpa using hxs⟩)
    have hstep : setBySlug acc e = acc ++ [e] := by
      unfold setBySlug
      rw [hany]
      simp
    rw [List.foldl_cons, hstep, ih (acc ++ [e]) ?_]
    · simp
    · simpa [List.append_assoc] using hN

theorem mem_setBySlug {m : List ReleaseManifestEntry} {u : ReleaseManifestEntry}
    (e : ReleaseManifestEntry) :
    e ∈ setBySlug m u ↔ e = u ∨ (e ∈ m ∧ e.slug ≠ u.slug) := by
  unfold setBySlug
  split
  · next hany =>
    obtain ⟨x0, hx0, hx0s⟩ := List.any_eq_true.1 hany
    have hx0s' : x0.slug = u.slug := by simpa using hx0s
    constructor
    · intro hm
      obtain ⟨x, hx, hfx⟩ := List.mem_map.1 hm
      by_cases hxs : x.slug = u.slug
      · left
        simp only [hxs, beq_self_eq_true, if_pos] at hfx
        exact hfx.symm
      · right
        simp only [beq_eq_false_iff_ne, ne_eq, hxs, not_false_eq_true, if_neg,
          beq_iff_eq] at hfx
        exact hfx ▸ ⟨hx, hxs⟩
    · rintro (rfl | ⟨hm, hne⟩)
      · exact List.mem_map.2 ⟨x0, hx0, by simp [hx0s']⟩
      · refine List.mem_map.2 ⟨e, hm, ?_⟩
        simp [hne]
  · next hany =>
    have hnotin : ∀ x ∈ m, x.slug ≠ u.slug := by
      intro x hx hc
      exact hany (List.any_eq_true.2 ⟨x, hx, by simp [hc]⟩)
    constructor
    · intro hm
      rcases List.mem_append.1 hm with h | h
      · right; exact ⟨h, hnotin e h⟩
      · left; simpa using h
    · rintro (rfl | ⟨hm, _⟩)
      · simp
      · exact List.mem_append.2 (Or.inl hm)

theorem find?_slug_eq {m : List ReleaseManifestEntry}
    (hN : (m.map (·.slug)).Nodup) {e : ReleaseManifestEntry} (he : e ∈ m) :
    m.find? (fun x => x.slug == e.slug) = some e := by
  induction m with
  | nil => cases he
  | cons a as ih =>
    rw [List.map_cons, List.nodup_cons] at hN
    rcases List.mem_cons.1 he with rfl | hmem
    · simp [List.find?]
    · have hne : (a.slug == e.slug) = false := by
        rw [beq_eq_false_iff_ne]
        intro hc
        exact hN.1 (hc ▸ List.mem_map.2 ⟨e, hmem, rfl⟩)
      rw [List.find?]
      rw [hne]
      exact ih hN.2 hmem

theorem mem_orderedKnown_iff {m : List ReleaseManifestEntry}
    (hN : (m.map (·.slug)).Nodup) (ks : List String) (e : ReleaseManifestEntry) :
    e ∈ ks.filterMap (fun s => m.find? (fun x => x.slug == s)) ↔
      e ∈ m ∧ e.slug ∈ ks := by
  rw [List.mem_filterMap]
  constructor
  · rintro ⟨s, hs, hfind⟩
    have hmem := List.mem_of_find?_eq_some hfind
    have hpred : e.slug = s := by simpa using List.find?_some hfind
    exact ⟨hmem, hpred ▸ hs⟩
  · rintro ⟨hm, hks⟩
    exact ⟨e.slug, hks, find?_slug_eq hN hm⟩

theorem map_slug_orderedKnown (m : List ReleaseManifestEntry) (ks : List String) :
    (ks.filterMap (fun s => m.find? (fun x => x.slug == s))).map (·.slug) =
      ks.filter (fun s => m.any (fun x => x.slug == s)) := by
  induction ks with
  | nil => rfl
  | cons s ks ih =>
    simp only [List.filterMap_cons]
    cases hf : m.find? (fun x => x.slug == s) with
    | none =>
      have hany : m.any (fun x => x.slug == s) = false := by
        rw [Bool.eq_false_iff]
        intro h
        obtain ⟨x, hx, hxs⟩ := List.any_eq_true.1 h
        exact List.find?_eq_none.1 hf x hx hxs
      rw [List.filter_cons, hany]
      simpa using ih
    | some e =>
      have hpred : e.slug = s := by simpa using List.find?_some hf
      have hany : m.any (fun x => x.slug == s) = true :=
        List.any_eq_true.2 ⟨e, List.mem_of_find?_eq_some hf, by simp [hpred]⟩
      rw [List.filter_cons, hany]
      simp only [List.map_cons, ih, if_pos]
      congr 1

theorem contains_iff_mem (l : List String) (s : String) :
    l.contains s = true ↔ s ∈ l := by
  simp [List.contains]

theorem bool_eq_of_iff {a b : Bool} (h : a = true ↔ b = true) : a = b := by
  cases a <;> cases b <;> simp_all

instance : IsTotal ReleaseManifestEntry (fun a b => a.slug ≤ b.slug) :=
  ⟨fun a b => le_total a.slug b.slug⟩

instance : IsTrans ReleaseManifestEntry (fun a b => a.slug ≤ b.slug) :=
  ⟨fun _ _ _ h1 h2 => le_trans h1 h2⟩

/-- C9: merging a single release's re-run entry `u` into an existing
manifest (whose slugs are distinct) replaces exactly the entry with `u`'s
slug and keeps every other entry; the result is the known-slug entries in
`KNOWN_RELEASES` order followed by the unknown-slug entries sorted
ascending by slug. -/
theorem mergeManifestEntries_single_release
    (existing : List ReleaseManifestEntry) (u : ReleaseManifestEntry)
    (hN : (existing.map (·.slug)).Nodup) :
    (∀ e, e ∈ mergeManifestEntries existing [u] ↔
        e = u ∨ (e ∈ existing ∧ e.slug ≠ u.slug)) ∧
    mergeManifestEntries existing [u] =
      (mergeManifestEntries existing [u]).filter (fun e => knownOrder.contains e.slug) ++
        (mergeManifestEntries existing [u]).filter (fun e => !knownOrder.contains e.slug) ∧
    ((mergeManifestEntries existing [u]).filter
        (fun e => knownOrder.contains e.slug)).map (·.slug) =
      knownOrder.filter
        (fun s => (mergeManifestEntries existing [u]).any (fun e => e.slug == s)) ∧
    ((mergeManifestEntries existing [u]).filter
        (fun e => !knownOrder.contains e.slug)).Pairwise (fun a b => a.slug ≤ b.slug) := by
  have hMF : mapFromEntries existing = existing := mapFromEntries_eq_self hN
  have hNm : ((setBySlug existing u).map (·.slug)).Nodup := nodup_slugs_setBySlug hN
  have hr : mergeManifestEntries existing [u] =
      knownOrder.filterMap (fun s => (setBySlug existing u).find? (fun x => x.slug == s)) ++
        ((setBySlug existing u).filter
          (fun e => !knownOrder.contains e.slug)).insertionSort (fun a b => a.slug ≤ b.slug) := by
    simp only [mergeManifestEntries, hMF, List.foldl_cons, List.foldl_nil]
  set m := setBySlug existing u with hmdef
  set A := knownOrder.filterMap (fun s => m.find? (fun x => x.slug == s)) with hA
  set B := (m.filter (fun e => !knownOrder.contains e.slug)).insertionSort
    (fun a b => a.slug ≤ b.slug) with hB
  have hAmem : ∀ e, e ∈ A ↔ e ∈ m ∧ e.slug ∈ knownOrder := fun e =>
    mem_orderedKnown_iff hNm knownOrder e
  have hBmem : ∀ e, e ∈ B ↔ e ∈ m ∧ e.slug ∉ knownOrder := by
    intro e
    rw [hB, (List.perm_insertionSort _ _).mem_iff, List.mem_filter]
    constructor
    · rintro ⟨h1, h2⟩
      refine ⟨h1, fun hc => ?_⟩
      rw [Bool.not_eq_true', Bool.eq_false_iff] at h2
      exact h2 ((contains_iff_mem _ _).2 hc)
    · rintro ⟨h1, h2⟩
      refine ⟨h1, ?_⟩
      rw [Bool.not_eq_true', Bool.eq_false_iff]
      intro hc
      exact h2 ((contains_iff_mem _ _).1 hc)
  have hABmem : ∀ e, e ∈ A ++ B ↔ e ∈ m := by
    intro e
    rw [List.mem_append, hAmem, hBmem]
    by_cases hk : e.slug ∈ knownOrder <;> simp [hk]
  have hAknown : ∀ e ∈ A, knownOrder.contains e.slug = true :=
    fun e he => (contains_iff_mem _ _).2 ((hAmem e).1 he).2
  have hBunknown : ∀ e ∈ B, knownOrder.contains e.slug = false := by
    intro e he
    rw [Bool.eq_false_iff]
    intro hc
    exact ((hBmem e).1 he).2 ((contains_iff_mem _ _).1 hc)
  have hfilt1 : (A ++ B).filter (fun e => knownOrder.contains e.slug) = A := by
    rw [List.filter_append]
    rw [List.filter_eq_self.2 hAknown]
    rw [show B.filter (fun e => knownOrder.contains e.slug) = [] from
      List.filter_eq_nil_iff.2 (fun e he => by rw [hBunknown e he]; simp)]
    simp
  have hfilt2 : (A ++ B).filter (fun e => !knownOrder.contains e.slug) = B := by
    rw [List.filter_append]
    rw [show A.filter (fun e => !knownOrder.contains e.slug) = [] from
      List.filter_eq_nil_iff.2 (fun e he => by rw [hAknown e he]; simp)]
    rw [List.filter_eq_self.2 (fun e he => by rw [hBunknown e he]; rfl)]
    simp
  refine ⟨?_, ?_, ?_, ?_⟩
  · intro e
    rw [hr, hABmem e, hmdef]
    exact mem_setBySlug e
  · rw [hr, hfilt1, hfilt2]
  · rw [hr, hfilt1, hA, map_slug_orderedKnown]
    apply List.filter_congr
    intro s _
    apply bool_eq_of_iff
    rw [List.any_eq_true, List.any_eq_true]
    constructor
    · rintro ⟨x, hx, hxs⟩
      exact ⟨x, (hABmem x).2 hx, hxs⟩
    · rintro ⟨x, hx, hxs⟩
      exact ⟨x, (hABmem x).1 hx, hxs⟩
  · rw [hr, hfilt2, hB]
    exact List.sorted_insertionSort _ _

/-- Witness for `mergeManifestEntries_single_release`: an untouched entry
(slug `zzz`) survives the merge of a `teak` update. -/
theorem mergeManifestEntries_witness :
    (⟨"zzz", "Z", "r2", none, none⟩ : ReleaseManifestEntry) ∈
      mergeManifestEntries
        [⟨"ulmo", "Ulmo", "r1", none, none⟩, ⟨"zzz", "Z", "r2", none, none⟩]
        [⟨"teak", "Teak", "r3", none, none⟩] :=
  ((mergeManifestEntries_single_release _ _ (by decide)).1 _).2
    (Or.inr ⟨by decide, by decide⟩)

/-! ## Event Extractor (src/scripts/collect-events.ts)

`new Date().toISOString()` is modelled as an explicit `now` argument; the
`Map<string, DataClass>` of parsed companion classes is modelled by its
lookup function `String → Option DataClass` (`Map.get`). -/

structure DataClassMapping where
  key : String
  className : String
  deriving DecidableEq, Repr

structure EventAttribute where
  name : String
  type : String
  description : Option String
  deriving DecidableEq, Repr

structure DataClass where
  name : String
  description : String
  attributes : List EventAttribute
  dataKey : Option String
  deriving DecidableEq, Repr

/-- `namespace` is a Lean keyword; the field is called `nspace` here. -/
structure Event where
  id : String
  eventName : String
  nspace : String
  eventType : Option String
  description : String
  attributes : Option (List DataClassMapping)
  dataClasses : Option (List DataClass)
  filePath : String
  sourceUrl : String
  lastUpdated : String
  deriving DecidableEq, Repr

/-- One attempt of `/(\w+)\s*=\s*OpenEdxPublicSignal\s*\(\s*event_type="([^"]+)"/`
at a fixed position: returns variable name, event type, and the input after
the match.  All repeated classes are followed by excluded characters, so
maximal munch is exact. -/
def signalMatchAt (cs : List Char) : Option (String × String × List Char) :=
  let w := cs.takeWhile wordChar
  if w.isEmpty then none
  else
    match (cs.drop w.length).dropWhile jsWs with
    | '=' :: r2 =>
      let r3 := r2.dropWhile jsWs
      if startsWithL "OpenEdxPublicSignal".data r3 then
        match (r3.drop 19).dropWhile jsWs with
        | '(' :: r5 =>
          let r6 := r5.dropWhile jsWs
          if startsWithL "event_type=\"".data r6 then
            let r7 := r6.drop 12
            let et := r7.takeWhile (· != '"')
            if et.isEmpty then none
            else
              match r7.drop et.length with
              | '"' :: r8 => some (⟨w⟩, ⟨et⟩, r8)
              | _ => none
          else none
        | _ => none
      else none
    | _ => none

/-- The `g`-flag `exec` loop of the signal regex: leftmost matches, each
next search starting at the end of the previous match.  Every step consumes
at least one character, so `length + 1` fuel is always enough. -/
def signalScanGo : Nat → List Char → List (String × String)
  | 0, _ => []
  | _ + 1, [] => []
  | fuel + 1, c :: cs =>
    match signalMatchAt (c :: cs) with
    | some (v, et, rest) => (v, et) :: signalScanGo fuel rest
    | none => signalScanGo fuel cs

def signalScan (cs : List Char) : List (String × String) :=
  signalScanGo (cs.length + 1) cs

/-- The parenthesis-counting loop of `extractDataClassesFromSignal`:
returns the offset of the closing parenthesis of the signal call, `none`
when the count never returns to zero (the source then leaves
`endIndex = varIndex`). -/
def parenScan : List Char → Bool → Int → Nat → Option Nat
  | [], _, _, _ => none
  | c :: cs, inDef, count, i =>
    if c = '(' then parenScan cs true (count + 1) (i + 1)
    else if c = ')' && inDef then
      (if count - 1 = 0 then some i else parenScan cs inDef (count - 1) (i + 1))
    else parenScan cs inDef count (i + 1)

/-- The brace-counting loop: from `data=`, record the position after the
first `{` and stop when the count returns to zero, yielding the start/stop
offsets of the mapping body. -/
def braceScan : List Char → Int → Option Nat → Nat → Option (Nat × Nat)
  | [], _, _, _ => none
  | c :: cs, count, bs, i =>
    if c = '{' then
      braceScan cs (count + 1) (if bs.isNone then some (i + 1) else bs) (i + 1)
    else if c = '}' then
      match bs with
      | some b => if count - 1 = 0 then some (b, i) else braceScan cs (count - 1) bs (i + 1)
      | none => braceScan cs (count - 1) none (i + 1)
    else braceScan cs count bs (i + 1)

def isQuoteChar (c : Char) : Bool := c = '"' || c = '\''

def isUpperChar (c : Char) : Bool := 'A' ≤ c && c ≤ 'Z'

/-- Backtracking of `\w*(?:Data|Type)` inside the word run following the
`[A-Z]`: the largest `j` with `Data`/`Type` right after `run.take j`. -/
def classNameSuffix (run : List Char) : Nat → Option Nat
  | 0 =>
    if startsWithL "Data".data run || startsWithL "Type".data run then some 0 else none
  | j + 1 =>
    if startsWithL "Data".data (run.drop (j + 1)) ||
        startsWithL "Type".data (run.drop (j + 1)) then some (j + 1)
    else classNameSuffix run j

/-- `([A-Z]\w*(?:Data|Type))`: capture and remaining input. -/
def classNameMatch : List Char → Option (List Char × List Char)
  | [] => none
  | c :: cs' =>
    if isUpperChar c then
      let run := cs'.takeWhile wordChar
      match classNameSuffix run run.length with
      | some j => some (c :: run.take (j + 4), cs'.drop (j + 4))
      | none => none
    else none

/-- One attempt of `/["'](\w+)["']:\s*([A-Z]\w*(?:Data|Type))/`. -/
def keyClassMatchAt : List Char → Option (DataClassMapping × List Char)
  | [] => none
  | q :: cs' =>
    if isQuoteChar q then
      let w := cs'.takeWhile wordChar
      if w.isEmpty then none
      else
        match cs'.drop w.length with
        | q2 :: ':' :: r3 =>
          if isQuoteChar q2 then
            match classNameMatch (r3.dropWhile jsWs) with
            | some (cls, rest) => some (⟨⟨w⟩, ⟨cls⟩⟩, rest)
            | none => none
          else none
        | _ => none
    else none

def keyClassScanGo : Nat → List Char → List DataClassMapping
  | 0, _ => []
  | _ + 1, [] => []
  | fuel + 1, c :: cs =>
    match keyClassMatchAt (c :: cs) with
    | some (m, rest) => m :: keyClassScanGo fuel rest
    | none => keyClassScanGo fuel cs

def keyClassScan (cs : List Char) : List DataClassMapping :=
  keyClassScanGo (cs.length + 1) cs

/-- `extractDataClassesFromSignal` from src/scripts/collect-events.ts:
locate `"{variableName} ="`, cut the signal call by parenthesis counting,
find `data=`, cut the `{...}` body by brace counting, then collect every
`"key": ClassName` pair whose class name ends in `Data`/`Type`. -/
def extractDataClassesFromSignal (content variableName : String) : List DataClassMapping :=
  match indexOfSubL (variableName.data ++ " =".data) content.data with
  | none => []
  | some varIndex =>
    let tail := content.data.drop varIndex
    let endIndex := match parenScan tail false 0 0 with
      | some j => varIndex + j
      | none => varIndex
    let signalDefinition := tail.take (endIndex - varIndex + 1)
    match indexOfSubL "data=".data signalDefinition with
    | none => []
    | some dataStart =>
      match braceScan (signalDefinition.drop dataStart) 0 none 0 with
      | none => []
      | some (b, i) =>
        let dataContent := ((signalDefinition.drop dataStart).drop b).take (i - b)
        if dataContent.isEmpty then [] else keyClassScan dataContent

/-- `line.replace(/^#\s*/, '')` — a single leading `#`. -/
def replaceHashLead (s : String) : String :=
  match s.data with
  | '#' :: r => ⟨r.dropWhile jsWs⟩
  | _ => s

/-- `line.replace(/^\.\.\s+event_description:\s*/, '')`. -/
def replaceDescMarker (s : String) : String :=
  match s.data with
  | '.' :: '.' :: r =>
    if (r.takeWhile jsWs).isEmpty then s
    else
      let r2 := r.dropWhile jsWs
      if startsWithL "event_description:".data r2 then ⟨(r2.drop 18).dropWhile jsWs⟩
      else s
  | _ => s

/-- The backward-search window: indices `varIndex-1, …, max(0, varIndex-20)`
in that order. -/
def descCandidates (varIndex : Nat) : List Nat :=
  (List.range' (varIndex - min varIndex 20) (min varIndex 20)).reverse

/-- The continuation-line loop (`j` from `i+1`, `n` iterations up to
`min(varIndex, i+10)`): a `#`-comment line that is not an `.. event_`
directive contributes its stripped text; a directive, blank, or
non-comment line stops the loop; a `#`-directive line is skipped. -/
def contLoopGo (lines : List String) : Nat → Nat → List String
  | _, 0 => []
  | j, n + 1 =>
    let nextLine := jsTrim (lines.getD j "")
    if startsWithS nextLine "#" && !containsSub nextLine ".. event_" then
      (let cont := jsTrim (replaceHashLead nextLine)
       if cont == "" then contLoopGo lines (j + 1) n
       else cont :: contLoopGo lines (j + 1) n)
    else if startsWithS nextLine ".. event_" || nextLine == "" || !startsWithS nextLine "#" then
      []
    else contLoopGo lines (j + 1) n

/-- `[].join(' ')`. -/
def joinSpace : List String → List Char
  | [] => []
  | [s] => s.data
  | s :: rest => s.data ++ ' ' :: joinSpace rest

def upperChar (c : Char) : Char :=
  if 'a' ≤ c && c ≤ 'z' then Char.ofNat (c.toNat - 32) else c

/-- The fallback: second-to-last dot-segment of the event type (or
`event`), underscores to spaces, first character upper-cased. -/
def eventTypeFallback (eventType : String) : String :=
  let parts := jsSplit '.' eventType
  let lp0 := if 2 ≤ parts.length then parts.getD (parts.length - 2) "" else ""
  let lastParts := if lp0 == "" then "event" else lp0
  let repl := replaceAllChar '_' ' ' lastParts
  ⟨(repl.data.take 1).map upperChar ++ (replaceAllChar '_' ' ' (dropS 1 lastParts)).data⟩

/-- `extractEventDescription` from src/scripts/collect-events.ts. -/
def extractEventDescription (content variableName eventType : String) : String :=
  let lines := jsLines content
  match lines.findIdx? (fun l => containsSubL (variableName.data ++ " =".data) l.data) with
  | some varIndex =>
    if 0 < varIndex then
      match (descCandidates varIndex).find?
          (fun i => containsSubL ".. event_description:".data (jsTrimL (lines.getD i "").data)) with
      | some i =>
        let trimmed := jsTrim (lines.getD i "")
        let description := jsTrim (replaceDescMarker (replaceHashLead trimmed))
        let descriptionLines := (if description == "" then [] else [description]) ++
          contLoopGo lines (i + 1) (min varIndex (i + 10) - (i + 1))
        if descriptionLines.isEmpty then eventTypeFallback eventType
        else takeS 500 ⟨joinSpace descriptionLines⟩
      | none => eventTypeFallback eventType
    else eventTypeFallback eventType
  | none => eventTypeFallback eventType

/-- One event record of `parseEventFile`. -/
def mkParsedEvent (content filePath domainName now variableName eventType : String) : Event :=
  let description := extractEventDescription content variableName eventType
  let dataClassMappings := extractDataClassesFromSignal content variableName
  let nspace := replaceAllChar '_' '-' domainName
  { id := nspace ++ "." ++ variableName
    eventName := variableName
    nspace := nspace
    eventType := some eventType
    description := description
    attributes := if 0 < dataClassMappings.length then some dataClassMappings else none
    dataClasses := none
    filePath := filePath
    sourceUrl := "https://github.com/openedx/openedx-events/tree/main/" ++ filePath
    lastUpdated := now }

/-- `parseEventFile` from src/scripts/collect-events.ts. -/
def parseEventFile (content filePath domainName now : String) : List Event :=
  (signalScan content.data).map fun p =>
    mkParsedEvent content filePath domainName now p.1 p.2

/-- The per-event body of `enrichEventsWithData`.  `attr.className ||
attr.name` falls back to the (absent) `name` field of a mapping only when
`className` is the empty string, in which case the `Map.get(undefined)`
lookup misses. -/
def enrichEvent (dataClasses : String → Option DataClass) (event : Event) : Event :=
  let relatedDataClasses := (event.attributes.getD []).filterMap fun attr =>
    if attr.className == "" then none
    else (dataClasses attr.className).map fun dc => { dc with dataKey := some attr.key }
  let cleanedEvent := { event with attributes := none }
  if 0 < relatedDataClasses.length then
    { cleanedEvent with dataClasses := some relatedDataClasses }
  else cleanedEvent

/-- `enrichEventsWithData` from src/scripts/collect-events.ts. -/
def enrichEventsWithData (events : List Event) (dataClasses : String → Option DataClass) :
    List Event :=
  events.map (enrichEvent dataClasses)

/-- C10: every event returned by `enrichEventsWithData` has its
intermediate `attributes` field cleared to `none`, whether or not any
payload data classes were resolved — the mappings collected during signal
parsing are never exposed on emitted events. -/
theorem enrichEventsWithData_clears_attributes
    (events : List Event) (dcs : String → Option DataClass) (e : Event)
    (he : e ∈ enrichEventsWithData events dcs) : e.attributes = none := by
  obtain ⟨e0, _, rfl⟩ := List.mem_map.1 he
  simp only [enrichEvent]
  split
  · rfl
  · rfl

/-- Witness for `enrichEventsWithData_clears_attributes` on a concrete
event carrying a parsed mapping. -/
theorem enrichEventsWithData_clears_attributes_witness :
    (enrichEvent (fun _ => none)
      ⟨"i", "n", "ns", none, "d", some [⟨"k", "CData"⟩], none, "f", "s", "t"⟩).attributes =
      none :=
  enrichEventsWithData_clears_attributes
    [⟨"i", "n", "ns", none, "d", some [⟨"k", "CData"⟩], none, "f", "s", "t"⟩]
    (fun _ => none) _ (List.mem_map.2 ⟨_, List.mem_singleton.2 rfl, rfl⟩)

/-- C8 (amended): an event none of whose payload-mapping class names
resolves in the companion map carries no `dataClasses` field; every emitted
data class arises from a resolved mapping and carries that mapping's key as
`dataKey`; parsed events start with no `dataClasses` field; and enrichment
is the per-event map of `enrichEvent`. -/
theorem enrichEventsWithData_unresolved
    :
    (∀ (dcs : String → Option DataClass) (e : Event),
      e.dataClasses = none →
      (∀ m ∈ e.attributes.getD [], m.className = "" ∨ dcs m.className = none) →
      (enrichEvent dcs e).dataClasses = none) ∧
    (∀ (dcs : String → Option DataClass) (e : Event) (l : List DataClass) (dc : DataClass),
      e.dataClasses = none →
      (enrichEvent dcs e).dataClasses = some l → dc ∈ l →
      ∃ m ∈ e.attributes.getD [], m.className ≠ "" ∧
        ∃ d0, dcs m.className = some d0 ∧ dc = { d0 with dataKey := some m.key }) ∧
    (∀ content filePath domainName now e,
      e ∈ parseEventFile content filePath domainName now → e.dataClasses = none) ∧
    (∀ events dcs, enrichEventsWithData events dcs = events.map (enrichEvent dcs)) := by
  refine ⟨?_, ?_, ?_, fun _ _ => rfl⟩
  · intro dcs e hdc hmaps
    have hnil : (e.attributes.getD []).filterMap (fun attr =>
        if attr.className == "" then none
        else (dcs attr.className).map fun dc => { dc with dataKey := some attr.key }) = [] := by
      rw [List.filterMap_eq_nil_iff]
      intro m hm
      rcases hmaps m hm with h | h
      · simp [h]
      · simp [h]
    simp only [enrichEvent, hnil]
    simpa using hdc
  · intro dcs e l dc hdc hl hmem
    simp only [enrichEvent] at hl
    split at hl
    · next hpos =>
      have hleq : (e.attributes.getD []).filterMap (fun attr =>
          if attr.className == "" then none
          else (dcs attr.className).map fun x => { x with dataKey := some attr.key }) = l := by
        simpa using hl
      rw [← hleq] at hmem
      obtain ⟨m, hm, hf⟩ := List.mem_filterMap.1 hmem
      by_cases hcn : m.className == ""
      · rw [if_pos hcn] at hf; cases hf
      · rw [if_neg hcn] at hf
        obtain ⟨d0, hd0, hdc0⟩ := Option.map_eq_some'.1 hf
        refine ⟨m, hm, by simpa using hcn, d0, hd0, hdc0.symm⟩
    · next hpos =>
      exfalso
      have : e.dataClasses = some l := by simpa using hl
      rw [hdc] at this
      cases this
  · intro content filePath domainName now e he
    obtain ⟨p, _, rfl⟩ := List.mem_map.1 he
    rfl

/-- Witness for `enrichEventsWithData_unresolved`: with an empty companion
map, an event whose mapping references only `XData` keeps `dataClasses`
absent. -/
theorem enrichEventsWithData_unresolved_witness :
    (enrichEvent (fun _ => none)
      ⟨"i", "n", "ns", none, "d", some [⟨"k", "XData"⟩], none, "f", "s", "t"⟩).dataClasses =
      none :=
  enrichEventsWithData_unresolved.1 (fun _ => none)
    ⟨"i", "n", "ns", none, "d", some [⟨"k", "XData"⟩], none, "f", "s", "t"⟩
    rfl (fun _ _ => Or.inr rfl)

/-- C8 counterexample: the parsed signal's `data={...}` mapping references
`AbsData`, which is absent from the companion map, and yet the enriched
event *does* carry a `dataClasses` field, because the second mapping entry
(`FoundData`) resolves. -/
theorem enrichEventsWithData_counterexample :
    (parseEventFile
        "S = OpenEdxPublicSignal(event_type=\"a.b\", data=\x7b\"k1\": AbsData, \"k2\": FoundData\x7d)"
        "f" "dom" "t").map (fun e => e.attributes) =
      [some [⟨"k1", "AbsData"⟩, ⟨"k2", "FoundData"⟩]] ∧
    (fun s => if s = "FoundData" then some (⟨"FoundData", "d", [], none⟩ : DataClass)
      else none) "AbsData" = none ∧
    (enrichEventsWithData
        (parseEventFile
          "S = OpenEdxPublicSignal(event_type=\"a.b\", data=\x7b\"k1\": AbsData, \"k2\": FoundData\x7d)"
          "f" "dom" "t")
        (fun s => if s = "FoundData" then some ⟨"FoundData", "d", [], none⟩ else none)).map
        (fun e => e.dataClasses) =
      [some [⟨"FoundData", "d", [], some "k2"⟩]] :=
  ⟨by decide, by decide, by decide⟩

/-! ## Filter Extractor (src/unnamed/part_003: `extractFilterClasses`)

`new Date().toISOString()` is an explicit `now` argument, as before. -/

structure FilterArgument where
  name : String
  type : String
  description : String
  deriving DecidableEq, Repr

structure FilterReturn where
  type : String
  description : String
  deriving DecidableEq, Repr

structure FilterException where
  name : String
  description : String
  deriving DecidableEq, Repr

structure Trigger where
  repository : String
  path : String
  function : String
  deriving DecidableEq, Repr

structure Filter where
  id : String
  filterType : String
  name : String
  category : String
  description : String
  repository : String
  filePath : String
  sourceUrl : String
  arguments : List FilterArgument
  returns : List FilterReturn
  exceptions : List FilterException
  trigger : Option Trigger
  lastUpdated : String
  deriving DecidableEq, Repr

/-- `/^class\s+(\w+)\(OpenEdxPublicFilter\):/` — the captured class name. -/
def filterClassMatch (line : String) : Option String :=
  match line.data with
  | 'c' :: 'l' :: 'a' :: 's' :: 's' :: rest =>
    if (rest.takeWhile jsWs).isEmpty then none
    else
      let r1 := rest.dropWhile jsWs
      let w := r1.takeWhile wordChar
      if w.isEmpty then none
      else if startsWithL "(OpenEdxPublicFilter):".data (r1.drop w.length) then some ⟨w⟩
      else none
  | _ => none

/-- `/^class\s+\w+/` — the end-of-extent test. -/
def classStartMatch (line : String) : Bool :=
  match line.data with
  | 'c' :: 'l' :: 'a' :: 's' :: 's' :: rest =>
    !(rest.takeWhile jsWs).isEmpty && !((rest.dropWhile jsWs).takeWhile wordChar).isEmpty
  | _ => false

/-- The end-of-class scan: the first line after `i` starting a new class,
else the end of the file (the source's `j === lines.length - 1` branch and
the untouched `classEndLine = i + 1` initialisation coincide there). -/
def findClassEnd (lines : List String) (i : Nat) : Nat :=
  match (lines.drop (i + 1)).findIdx? classStartMatch with
  | some k => i + 1 + k
  | none => lines.length

/-- `/filter_type\s*=\s*['"](.*?)['"]/` at one position: the lazy `(.*?)`
stops at the first quote character of either kind. -/
def filterTypeMatchAt (cs : List Char) : Option (List Char) :=
  if startsWithL "filter_type".data cs then
    match (cs.drop 11).dropWhile jsWs with
    | '=' :: r2 =>
      match r2.dropWhile jsWs with
      | q :: r4 =>
        if isQuoteChar q then
          let cap := r4.takeWhile (fun c => !isQuoteChar c)
          match r4.drop cap.length with
          | _ :: _ => some cap
          | [] => none
        else none
      | [] => none
    | _ => none
  else none

def filterTypeScanL : List Char → Option (List Char)
  | [] => none
  | c :: cs => filterTypeMatchAt (c :: cs) <|> filterTypeScanL cs

/-- The `for (const classLine of classLines)` loop looking for a
`filter_type = "..."` assignment, first match wins. -/
def filterTypeLoop : List String → Option (List Char)
  | [] => none
  | l :: ls =>
    match filterTypeScanL l.data with
    | some cap => some cap
    | none => filterTypeLoop ls

/-- The class-docstring toggle loop: lines strictly between the first and
second `"""`-bearing lines, joined with `\n`. -/
def docstringLoop : List String → Bool → List Char
  | [], _ => []
  | l :: ls, inDoc =>
    if containsSubL "\"\"\"".data l.data then
      (if inDoc then [] else docstringLoop ls true)
    else if inDoc then l.data ++ '\n' :: docstringLoop ls true
    else docstringLoop ls false

def classDocstring (classLines : List String) : String :=
  ⟨jsTrimL (docstringLoop classLines false)⟩

/-- The lazy run of `/Purpose:\s*([\s\S]*?)(?:Filter Type:|Trigger:|$)/`:
everything up to the first `Filter Type:`/`Trigger:`. -/
def takeUntilPurposeTerm : List Char → List Char
  | [] => []
  | c :: cs =>
    if startsWithL "Filter Type:".data (c :: cs) || startsWithL "Trigger:".data (c :: cs) then []
    else c :: takeUntilPurposeTerm cs

def purposeExtract (ds : List Char) : Option (List Char) :=
  match indexOfSubL "Purpose:".data ds with
  | none => none
  | some p => some (takeUntilPurposeTerm ((ds.drop (p + 8)).dropWhile jsWs))

def nonWsChar (c : Char) : Bool := !jsWs c

/-- Backtracking `(\S+)` followed by a continuation: all split lengths of
the maximal non-whitespace run are tried, longest first, exactly as the JS
engine does. -/
def nonWsTryLens {α : Type} (run rest : List Char) (k : List Char → List Char → Option α) :
    Nat → Option α
  | 0 => none
  | n + 1 => k (run.take (n + 1)) (run.drop (n + 1) ++ rest) <|> nonWsTryLens run rest k n

def nonWsBacktrack {α : Type} (k : List Char → List Char → Option α) (cs : List Char) :
    Option α :=
  let run := cs.takeWhile nonWsChar
  nonWsTryLens run (cs.drop run.length) k run.length

/-- The innermost continuation of the trigger pattern:
`Function\s+or\s+Method:\s*(\S+)` after the third `-`. -/
def triggerFnTail (repo path : List Char) (r11 : List Char) : Option Trigger :=
  if startsWithL "Function".data r11 then
    let r12 := r11.drop 8
    if (r12.takeWhile jsWs).isEmpty then none
    else
      let r13 := r12.dropWhile jsWs
      if startsWithL "or".data r13 then
        let r14 := r13.drop 2
        if (r14.takeWhile jsWs).isEmpty then none
        else
          let r15 := r14.dropWhile jsWs
          if startsWithL "Method:".data r15 then
            let r16 := (r15.drop 7).dropWhile jsWs
            let fn := r16.takeWhile nonWsChar
            if fn.isEmpty then none else some ⟨⟨repo⟩, ⟨path⟩, ⟨fn⟩⟩
          else none
      else none
  else none

/-- `/Trigger:\s*-\s*Repository:\s*(\S+)\s*-\s*Path:\s*(\S+)\s*-\s*Function\s+or\s+Method:\s*(\S+)/`
attempted at one position. -/
def triggerMatchAt (cs : List Char) : Option Trigger :=
  if startsWithL "Trigger:".data cs then
    match (cs.drop 8).dropWhile jsWs with
    | '-' :: r2 =>
      let r3 := r2.dropWhile jsWs
      if startsWithL "Repository:".data r3 then
        nonWsBacktrack (fun repo rest1 =>
          match rest1.dropWhile jsWs with
          | '-' :: r6 =>
            let r7 := r6.dropWhile jsWs
            if startsWithL "Path:".data r7 then
              nonWsBacktrack (fun path rest2 =>
                match rest2.dropWhile jsWs with
                | '-' :: r10 => triggerFnTail repo path (r10.dropWhile jsWs)
                | _ => none) ((r7.drop 5).dropWhile jsWs)
            else none
          | _ => none) ((r3.drop 11).dropWhile jsWs)
      else none
    | _ => none
  else none

def triggerScan : List Char → Option Trigger
  | [] => none
  | c :: cs => triggerMatchAt (c :: cs) <|> triggerScan cs

/-- The trigger extraction from a class docstring. -/
def extractTrigger (ds : String) : Option Trigger := triggerScan ds.data

/-- `/^\s{4}def\s/`: exactly four whitespace characters, `def`, one
whitespace. -/
def ws4def (l : String) : Bool :=
  match l.data with
  | a :: b :: c :: d :: 'd' :: 'e' :: 'f' :: e :: _ =>
    jsWs a && jsWs b && jsWs c && jsWs d && jsWs e
  | _ => false

/-- The `run_filter` docstring loop: same `"""` toggle, plus the
`j > runFilterStart && /^\s{4}def\s/ && !inDocstring` early exit (which can
only fire outside the docstring, where nothing is accumulated). -/
def runFilterDocLoop : List String → Bool → Bool → List Char
  | [], _, _ => []
  | rl :: rest, inDoc, isFirst =>
    if containsSubL "\"\"\"".data rl.data then
      (if inDoc then [] else runFilterDocLoop rest true false)
    else if inDoc then rl.data ++ '\n' :: runFilterDocLoop rest true false
    else if !isFirst && ws4def rl then []
    else runFilterDocLoop rest inDoc false

def runFilterIdx (classLines : List String) : Option Nat :=
  classLines.findIdx? (fun l => containsSubL "def run_filter".data l.data)

/-- `/Arguments:\s*([\s\S]*?)(?:Returns:|$)/` — lazy capture up to the
first `Returns:`. -/
def takeUntilReturns : List Char → List Char
  | [] => []
  | c :: cs =>
    if startsWithL "Returns:".data (c :: cs) then [] else c :: takeUntilReturns cs

def argsSection (ds : List Char) : Option (List Char) :=
  match indexOfSubL "Arguments:".data ds with
  | none => none
  | some p => some (takeUntilReturns ((ds.drop (p + 10)).dropWhile jsWs))

/-- `/Returns:\s*([\s\S]*?)$/` — no `m` flag, so this is simply everything
after the first `Returns:` and its whitespace. -/
def returnsSection (ds : List Char) : Option (List Char) :=
  (indexOfSubL "Returns:".data ds).map (fun p => (ds.drop (p + 8)).dropWhile jsWs)

/-- `/^\s*(\w+)\s*\(([^)]+)\):\s*(.*?)$/` tried at a line start: returns
the argument record and the rest of the input from the line end (`$`) on.
The leading and trailing `\s*` may cross line breaks, exactly as `\s` does
in the JS pattern. -/
def argMatchAt (cs : List Char) : Option (FilterArgument × List Char) :=
  let r1 := cs.dropWhile jsWs
  let w := r1.takeWhile wordChar
  if w.isEmpty then none
  else
    match (r1.drop w.length).dropWhile jsWs with
    | '(' :: r3 =>
      let ty := r3.takeWhile (· != ')')
      if ty.isEmpty then none
      else
        match r3.drop ty.length with
        | ')' :: ':' :: r4 =>
          let r5 := r4.dropWhile jsWs
          let desc := r5.takeWhile (· != '\n')
          some (⟨⟨w⟩, jsTrim ⟨ty⟩, takeS 200 (jsTrim ⟨desc⟩)⟩, r5.drop desc.length)
        | _ => none
    | _ => none

/-- The `gm` exec loop for the argument-line regex: matches must start at
a line start; after a match the scan resumes at the match end (the line
end the `$` stopped at). -/
def argScanGo : Nat → Bool → List Char → List FilterArgument
  | 0, _, _ => []
  | _ + 1, _, [] => []
  | fuel + 1, atStart, c :: cs =>
    if atStart then
      match argMatchAt (c :: cs) with
      | some (a, rest) => a :: argScanGo fuel false rest
      | none => argScanGo fuel (c == '\n') cs
    else argScanGo fuel (c == '\n') cs

def argScan (cs : List Char) : List FilterArgument :=
  argScanGo (cs.length + 1) true cs

/-- The candidate splits of the lazy `\[.*?\]` after a word run: for each
`]` before the next line break (nearest first), the bracketed text and the
rest. -/
def bracketCands : List Char → List Char → List (List Char × List Char)
  | [], _ => []
  | c :: cs, acc =>
    if c = '\n' then []
    else if c = ']' then (acc.reverse, cs) :: bracketCands cs (c :: acc)
    else bracketCands cs (c :: acc)

def firstSome {α β : Type} (f : α → Option β) : List α → Option β
  | [] => none
  | a :: as' =>
    match f a with
    | some b => some b
    | none => firstSome f as'

/-- Alternative 1 of the returns-line capture, `\w+(?:\[.*?\])?`, with the
greedy word run backtracking from longest to shortest and the optional
bracket group tried (nearest `]` first) before being skipped. -/
def retAlt1Lens {α : Type} (cs W : List Char) (k : List Char → List Char → Option α) :
    Nat → Option α
  | 0 => none
  | n + 1 =>
    (let w := W.take (n + 1)
     let rest := cs.drop (n + 1)
     (match rest with
      | '[' :: r2 =>
        firstSome (fun br => k (w ++ '[' :: br.1 ++ [']']) br.2) (bracketCands r2 []) <|>
          k w rest
      | _ => k w rest)) <|> retAlt1Lens cs W k n

def retAlt1 {α : Type} (cs : List Char) (k : List Char → List Char → Option α) : Option α :=
  let W := cs.takeWhile wordChar
  if W.isEmpty then none else retAlt1Lens cs W k W.length

def retClassChar (c : Char) : Bool :=
  wordChar c || jsWs c || c = '|' || c = '[' || c = ']'

/-- Alternative 2, `\w+\|[\w\s|[\]]+` (both runs are forced, `:` is outside
both classes). -/
def retAlt2 {α : Type} (cs : List Char) (k : List Char → List Char → Option α) : Option α :=
  let W := cs.takeWhile wordChar
  if W.isEmpty then none
  else
    match cs.drop W.length with
    | '|' :: r2 =>
      let cls := r2.takeWhile retClassChar
      if cls.isEmpty then none
      else k (W ++ '|' :: cls) (r2.drop cls.length)
    | _ => none

/-- The shared tail `:\s*(.*?)$` of the returns-line regex. -/
def retTail (cap rest : List Char) : Option (FilterReturn × List Char) :=
  match rest with
  | ':' :: r4 =>
    let r5 := r4.dropWhile jsWs
    let desc := r5.takeWhile (· != '\n')
    some (⟨jsTrim ⟨cap⟩, takeS 200 (jsTrim ⟨desc⟩)⟩, r5.drop desc.length)
  | _ => none

/-- `/^\s*-\s*(\w+(?:\[.*?\])?|\w+\|[\w\s|[\]]+):\s*(.*?)$/` at a line
start. -/
def returnMatchAt (cs : List Char) : Option (FilterReturn × List Char) :=
  match cs.dropWhile jsWs with
  | '-' :: r2 =>
    let r3 := r2.dropWhile jsWs
    retAlt1 r3 retTail <|> retAlt2 r3 retTail
  | _ => none

def returnScanGo : Nat → Bool → List Char → List FilterReturn
  | 0, _, _ => []
  | _ + 1, _, [] => []
  | fuel + 1, atStart, c :: cs =>
    if atStart then
      match returnMatchAt (c :: cs) with
      | some (r, rest) => r :: returnScanGo fuel false rest
      | none => returnScanGo fuel (c == '\n') cs
    else returnScanGo fuel (c == '\n') cs

def returnScan (cs : List Char) : List FilterReturn :=
  returnScanGo (cs.length + 1) true cs

/-- `/^\s+class\s+(\w+)\(OpenEdxFilterException\):/`. -/
def excClassMatch (line : String) : Option String :=
  if (line.data.takeWhile jsWs).isEmpty then none
  else
    match line.data.dropWhile jsWs with
    | 'c' :: 'l' :: 'a' :: 's' :: 's' :: rest =>
      if (rest.takeWhile jsWs).isEmpty then none
      else
        let r1 := rest.dropWhile jsWs
        let w := r1.takeWhile wordChar
        if w.isEmpty then none
        else if startsWithL "(OpenEdxFilterException):".data (r1.drop w.length) then some ⟨w⟩
        else none
    | _ => none

/-- The lazy `^([\s\S]*?)(?:Attributes:|__init__|$)` over the exception
docstring (this match always succeeds, so the `: excDocstring…` fallback in
the source is dead code). -/
def takeUntilExcTerm : List Char → List Char
  | [] => []
  | c :: cs =>
    if startsWithL "Attributes:".data (c :: cs) || startsWithL "__init__".data (c :: cs) then []
    else c :: takeUntilExcTerm cs

/-- The nested-exception loop over the class extent: for each line
declaring an `OpenEdxFilterException` subclass, its docstring is read from
the following lines (same `"""` toggle) and truncated at
`Attributes:`/`__init__`. -/
def extractExceptionsGo : List String → List FilterException
  | [] => []
  | l :: rest =>
    match excClassMatch l with
    | some nm =>
      let ds := jsTrimL (docstringLoop rest false)
      ⟨nm, takeS 300 (jsTrim ⟨takeUntilExcTerm ds⟩)⟩ :: extractExceptionsGo rest
    | none => extractExceptionsGo rest

/-- `extractCategory` from src/unnamed/part_003: third dot-separated
segment of the filter type, or `general` with fewer than three segments. -/
def extractCategory (filterType : String) : String :=
  let parts := jsSplit '.' filterType
  if 3 ≤ parts.length then parts.getD 2 "" else "general"

/-- Everything computed per matched class in the `while` loop of
`extractFilterClasses` (the unused `classStartIndex` of the source is
omitted). -/
def buildFilter (filePath ref now : String) (classStartLine : Nat) (className : String)
    (classLines : List String) : Filter :=
  let filterType : String := match filterTypeLoop classLines with
    | some cap => ⟨cap⟩
    | none => "org.openedx." ++ className
  let docstring := classDocstring classLines
  let purpose : String := takeS 300 (match purposeExtract docstring.data with
    | some cap => jsTrim ⟨cap⟩
    | none => docstring)
  let trigger := extractTrigger docstring
  let argsRets : List FilterArgument × List FilterReturn :=
    match runFilterIdx classLines with
    | some rfs =>
      let runDoc : List Char := runFilterDocLoop (classLines.drop rfs) false true
      ((match argsSection runDoc with
        | some sec => argScan sec
        | none => []),
       (match returnsSection runDoc with
        | some sec => returnScan sec
        | none => []))
    | none => ([], [])
  { id := className
    filterType := filterType
    name := className
    category := extractCategory filterType
    description := purpose
    repository := "https://github.com/openedx/openedx-filters"
    filePath := filePath
    sourceUrl := "https://github.com/openedx/openedx-filters/blob/" ++ ref ++ "/" ++ filePath ++
      "#L" ++ toString (classStartLine + 1)
    arguments := argsRets.1
    returns := argsRets.2
    exceptions := extractExceptionsGo classLines
    trigger := trigger
    lastUpdated := now }

/-- The `while (i < lines.length)` loop: on a class match, build the filter
from the class extent and jump to its end; otherwise advance one line.
Each step advances `i` by at least one, so `lines.length + 1` fuel always
suffices. -/
def extractFilterClassesGo (filePath ref now : String) (lines : List String) :
    Nat → Nat → List Filter
  | 0, _ => []
  | fuel + 1, i =>
    if i < lines.length then
      match filterClassMatch (lines.getD i "") with
      | some className =>
        let classEndLine := findClassEnd lines i
        buildFilter filePath ref now i className ((lines.drop i).take (classEndLine - i)) ::
          extractFilterClassesGo filePath ref now lines fuel classEndLine
      | none => extractFilterClassesGo filePath ref now lines fuel (i + 1)
    else []

/-- `extractFilterClasses` from src/unnamed/part_003. -/
def extractFilterClasses (content filePath ref now : String) : List Filter :=
  let lines := jsLines content
  extractFilterClassesGo filePath ref now lines (lines.length + 1) 0

theorem mem_extractFilterClassesGo (fp ref now : String) (lines : List String) :
    ∀ (fuel i : Nat) (f : Filter), f ∈ extractFilterClassesGo fp ref now lines fuel i →
      ∃ (j : Nat) (cn : String) (cls : List String), f = buildFilter fp ref now j cn cls := by
  intro fuel
  induction fuel with
  | zero =>
    intro i f hf
    simp [extractFilterClassesGo] at hf
  | succ n ih =>
    intro i f hf
    simp only [extractFilterClassesGo] at hf
    split at hf
    · split at hf
      · rcases List.mem_cons.1 hf with rfl | hrec
        · exact ⟨i, _, _, rfl⟩
        · exact ih _ f hrec
      · exact ih _ f hf
    · cases hf

theorem mem_extractFilterClasses {content fp ref now : String} {f : Filter}
    (hf : f ∈ extractFilterClasses content fp ref now) :
    ∃ (j : Nat) (cn : String) (cls : List String), f = buildFilter fp ref now j cn cls :=
  mem_extractFilterClassesGo fp ref now (jsLines content) _ 0 f hf

/-- C6: every Filter record produced by the filter extractor has
`category` equal to `extractCategory` of its own `filterType` field — the
third dot-separated segment, or the literal `general` when the filter type
has fewer than three dot-separated segments. -/
theorem extractFilterClasses_category
    (content filePath ref now : String) (f : Filter)
    (hf : f ∈ extractFilterClasses content filePath ref now) :
    f.category = extractCategory f.filterType ∧
    f.category = (if 3 ≤ (jsSplit '.' f.filterType).length
      then (jsSplit '.' f.filterType).getD 2 "" else "general") := by
  obtain ⟨j, cn, cls, rfl⟩ := mem_extractFilterClasses hf
  exact ⟨rfl, rfl⟩

/-- Witness for `extractFilterClasses_category` on a one-line filter
class: the synthesized type `org.openedx.A` has third segment `A`. -/
theorem extractFilterClasses_category_witness :
    (⟨"A", "org.openedx.A", "A", "A", "", "https://github.com/openedx/openedx-filters",
      "f", "https://github.com/openedx/openedx-filters/blob/r/f#L1",
      [], [], [], none, "t"⟩ : Filter).category =
      extractCategory (⟨"A", "org.openedx.A", "A", "A", "",
        "https://github.com/openedx/openedx-filters", "f",
        "https://github.com/openedx/openedx-filters/blob/r/f#L1",
        [], [], [], none, "t"⟩ : Filter).filterType :=
  (extractFilterClasses_category "class A(OpenEdxPublicFilter):" "f" "r" "t" _ (by decide)).1

/-! ### C7: the `Trigger:` pattern, declaratively

`trigP…` spell out the trigger regex as a nested decomposition: literal
token, whitespace run (`\s*`/`\s+`), non-whitespace run (`\S+`). -/

def allWsP (w : List Char) : Prop := ∀ c ∈ w, jsWs c = true

def allNonWsP (v : List Char) : Prop := ∀ c ∈ v, jsWs c = false

def tokSplit (tok : List Char) (p : List Char → Prop) (cs : List Char) : Prop :=
  ∃ r, cs = tok ++ r ∧ p r

def wsSplit (p : List Char → Prop) (cs : List Char) : Prop :=
  ∃ w r, cs = w ++ r ∧ allWsP w ∧ p r

def wsPlus (p : List Char → Prop) (cs : List Char) : Prop :=
  ∃ w r, cs = w ++ r ∧ w ≠ [] ∧ allWsP w ∧ p r

def nonWsSplit (p : List Char → Prop) (cs : List Char) : Prop :=
  ∃ v r, cs = v ++ r ∧ v ≠ [] ∧ allNonWsP v ∧ p r

def trigTail3 : List Char → Prop :=
  tokSplit "Function".data (wsPlus (tokSplit "or".data (wsPlus (tokSplit "Method:".data
    (wsSplit (nonWsSplit (fun _ => True)))))))

def trigAfterPathVal : List Char → Prop := wsSplit (tokSplit ['-'] (wsSplit trigTail3))

def trigP3 : List Char → Prop := tokSplit "Path:".data (wsSplit (nonWsSplit trigAfterPathVal))

def trigAfterRepoVal : List Char → Prop := wsSplit (tokSplit ['-'] (wsSplit trigP3))

def trigP2 : List Char → Prop :=
  tokSplit "Repository:".data (wsSplit (nonWsSplit trigAfterRepoVal))

/-- The regex `Trigger:\s*-\s*Repository:\s*(\S+)\s*-\s*Path:\s*(\S+)\s*-\s*Function\s+or\s+Method:\s*(\S+)`
anchored at the start of the input. -/
def triggerPattern : List Char → Prop :=
  tokSplit "Trigger:".data (wsSplit (tokSplit ['-'] (wsSplit trigP2)))

/-- The docstring contains the complete three-field `Trigger:` pattern. -/
def containsTriggerPattern (cs : List Char) : Prop :=
  ∃ pre r, cs = pre ++ r ∧ triggerPattern r

theorem startsWithL_eq {p cs : List Char} (h : startsWithL p cs = true) :
    cs = p ++ cs.drop p.length := by
  induction p generalizing cs with
  | nil => simp
  | cons a as ih =>
    cases cs with
    | nil => simp [startsWithL] at h
    | cons c cs' =>
      simp only [startsWithL, Bool.and_eq_true, decide_eq_true_eq] at h
      obtain ⟨rfl, h2⟩ := h
      simpa using ih h2

theorem drop_takeWhile_len (p : Char → Bool) (l : List Char) :
    l.drop (l.takeWhile p).length = l.dropWhile p := by
  induction l with
  | nil => rfl
  | cons c cs ih =>
    by_cases hc : p c
    · simp [List.takeWhile, List.dropWhile, hc, ih]
    · simp [List.takeWhile, List.dropWhile, hc]

theorem ne_nil_of_isEmpty_false {α : Type} {l : List α} (h : l.isEmpty = false) : l ≠ [] := by
  cases l with
  | nil => simp at h
  | cons a as => simp

theorem wsSplit_intro {p : List Char → Prop} {cs : List Char}
    (h : p (cs.dropWhile jsWs)) : wsSplit p cs :=
  ⟨cs.takeWhile jsWs, cs.dropWhile jsWs, (List.takeWhile_append_dropWhile ..).symm,
    fun _ hc => List.mem_takeWhile_imp hc, h⟩

theorem wsPlus_intro {p : List Char → Prop} {cs : List Char}
    (hne : (cs.takeWhile jsWs).isEmpty = false) (h : p (cs.dropWhile jsWs)) : wsPlus p cs :=
  ⟨cs.takeWhile jsWs, cs.dropWhile jsWs, (List.takeWhile_append_dropWhile ..).symm,
    ne_nil_of_isEmpty_false hne, fun _ hc => List.mem_takeWhile_imp hc, h⟩

theorem tokSplit_intro {tok : List Char} {p : List Char → Prop} {cs : List Char}
    (hs : startsWithL tok cs = true) (h : p (cs.drop tok.length)) : tokSplit tok p cs :=
  ⟨cs.drop tok.length, startsWithL_eq hs, h⟩

theorem tokSplit_intro_cons {c : Char} {p : List Char → Prop} {r : List Char}
    (h : p r) : tokSplit [c] p (c :: r) :=
  ⟨r, rfl, h⟩

theorem orElse_eq_some {α : Type} {x y : Option α} {a : α} (h : (x <|> y) = some a) :
    x = some a ∨ (x = none ∧ y = some a) := by
  cases x with
  | some v => left; simpa using h
  | none => right; exact ⟨rfl, by simpa using h⟩

theorem nonWsTryLens_sound {α : Type} {run rest : List Char}
    {k : List Char → List Char → Option α} {a : α} (hrun : ∀ c ∈ run, nonWsChar c = true) :
    ∀ n, n ≤ run.length → nonWsTryLens run rest k n = some a →
      ∃ cap r2, run ++ rest = cap ++ r2 ∧ cap ≠ [] ∧ allNonWsP cap ∧ k cap r2 = some a := by
  intro n
  induction n with
  | zero => intro _ h; simp [nonWsTryLens] at h
  | succ n ih =>
    intro hn h
    rcases orElse_eq_some h with h1 | ⟨_, h2⟩
    · refine ⟨run.take (n + 1), run.drop (n + 1) ++ rest, ?_, ?_, ?_, h1⟩
      · rw [← List.append_assoc, List.take_append_drop]
      · rw [Ne, List.take_eq_nil_iff]
        rintro (h' | rfl)
        · exact Nat.succ_ne_zero n h'
        · simp at hn
      · intro c hc
        have := hrun c (List.mem_of_mem_take hc)
        simpa [nonWsChar] using this
    · exact ih (Nat.le_of_succ_le hn) h2

theorem nonWsBacktrack_sound {α : Type} {k : List Char → List Char → Option α}
    {cs : List Char} {a : α} (h : nonWsBacktrack k cs = some a) :
    ∃ cap r2, cs = cap ++ r2 ∧ cap ≠ [] ∧ allNonWsP cap ∧ k cap r2 = some a := by
  have hrun : ∀ c ∈ cs.takeWhile nonWsChar, nonWsChar c = true :=
    fun _ hc => List.mem_takeWhile_imp hc
  have hcs : cs = cs.takeWhile nonWsChar ++ cs.drop (cs.takeWhile nonWsChar).length := by
    rw [drop_takeWhile_len, List.takeWhile_append_dropWhile]
  obtain ⟨cap, r2, heq, hne, hnw, hk⟩ :=
    nonWsTryLens_sound hrun (cs.takeWhile nonWsChar).length le_rfl h
  exact ⟨cap, r2, by rw [hcs]; exact heq, hne, hnw, hk⟩

theorem nonWsSplit_intro_takeWhile {p : List Char → Prop} {cs : List Char}
    (hne : (cs.takeWhile nonWsChar).isEmpty = false) (h : p (cs.dropWhile nonWsChar)) :
    nonWsSplit p cs :=
  ⟨cs.takeWhile nonWsChar, cs.dropWhile nonWsChar, (List.takeWhile_append_dropWhile ..).symm,
    ne_nil_of_isEmpty_false hne,
    fun _ hc => by simpa [nonWsChar] using List.mem_takeWhile_imp hc, h⟩

theorem tokSplit_intro_drop {tok : List Char} {p : List Char → Prop} {cs : List Char}
    (n : Nat) (hn : tok.length = n) (hs : startsWithL tok cs = true) (h : p (cs.drop n)) :
    tokSplit tok p cs :=
  ⟨cs.drop n, by rw [← hn]; exact startsWithL_eq hs, h⟩

theorem triggerFnTail_sound {repo path r11 : List Char} {t : Trigger}
    (h : triggerFnTail repo path r11 = some t) :
    trigTail3 r11 ∧ t.repository = ⟨repo⟩ ∧ t.path = ⟨path⟩ ∧ t.function.data ≠ [] := by
  simp only [triggerFnTail] at h
  split at h
  · next hsw1 =>
    split at h
    · simp at h
    · next hws1 =>
      split at h
      · next hsw2 =>
        split at h
        · simp at h
        · next hws2 =>
          split at h
          · next hsw3 =>
            split at h
            · simp at h
            · next hfn =>
              injection h with ht
              subst ht
              refine ⟨?_, rfl, rfl, ne_nil_of_isEmpty_false (Bool.eq_false_iff.2 hfn)⟩
              refine tokSplit_intro_drop 8 (by decide) hsw1 ?_
              refine wsPlus_intro (Bool.eq_false_iff.2 hws1) ?_
              refine tokSplit_intro_drop 2 (by decide) hsw2 ?_
              refine wsPlus_intro (Bool.eq_false_iff.2 hws2) ?_
              refine tokSplit_intro_drop 7 (by decide) hsw3 ?_
              refine wsSplit_intro ?_
              exact nonWsSplit_intro_takeWhile (Bool.eq_false_iff.2 hfn) trivial
          · simp at h
      · simp at h
  · simp at h

theorem triggerMatchAt_sound {cs : List Char} {t : Trigger}
    (h : triggerMatchAt cs = some t) :
    triggerPattern cs ∧ t.repository.data ≠ [] ∧ t.path.data ≠ [] ∧ t.function.data ≠ [] := by
  simp only [triggerMatchAt] at h
  split at h
  · next hsw0 =>
    split at h
    · next r2 heq1 =>
      split at h
      · next hsw1 =>
        obtain ⟨repo, rest1, heqR, hneR, hnwR, hk⟩ := nonWsBacktrack_sound h
        split at hk
        · next r6 heq2 =>
          split at hk
          · next hsw2 =>
            obtain ⟨path, rest2, heqP, hneP, hnwP, hk2⟩ := nonWsBacktrack_sound hk
            split at hk2
            · next r10 heq3 =>
              obtain ⟨htail, hrep, hpath, hfn⟩ := triggerFnTail_sound hk2
              refine ⟨?_, by rw [hrep]; exact hneR, by rw [hpath]; exact hneP, hfn⟩
              refine tokSplit_intro_drop 8 (by decide) hsw0 ?_
              refine wsSplit_intro ?_
              rw [heq1]
              refine tokSplit_intro_cons ?_
              refine wsSplit_intro ?_
              refine tokSplit_intro_drop 11 (by decide) hsw1 ?_
              refine wsSplit_intro ?_
              rw [heqR]
              refine ⟨repo, rest1, rfl, hneR, hnwR, ?_⟩
              refine wsSplit_intro ?_
              rw [heq2]
              refine tokSplit_intro_cons ?_
              refine wsSplit_intro ?_
              refine tokSplit_intro_drop 5 (by decide) hsw2 ?_
              refine wsSplit_intro ?_
              rw [heqP]
              refine ⟨path, rest2, rfl, hneP, hnwP, ?_⟩
              refine wsSplit_intro ?_
              rw [heq3]
              refine tokSplit_intro_cons ?_
              refine wsSplit_intro ?_
              exact htail
            · simp at hk2
          · simp at hk
        · simp at hk
      · simp at h
    · simp at h
  · simp at h

theorem triggerScan_sound : ∀ {cs : List Char} {t : Trigger}, triggerScan cs = some t →
    containsTriggerPattern cs ∧ t.repository.data ≠ [] ∧ t.path.data ≠ [] ∧
      t.function.data ≠ [] := by
  intro cs
  induction cs with
  | nil => intro t h; simp [triggerScan] at h
  | cons c cs ih =>
    intro t h
    simp only [triggerScan] at h
    rcases orElse_eq_some h with h1 | ⟨_, h2⟩
    · obtain ⟨hp, f1, f2, f3⟩ := triggerMatchAt_sound h1
      exact ⟨⟨[], c :: cs, rfl, hp⟩, f1, f2, f3⟩
    · obtain ⟨⟨pre, r, heq, hp⟩, f1, f2, f3⟩ := ih h2
      exact ⟨⟨c :: pre, r, by simp [heq], hp⟩, f1, f2, f3⟩

/-- C7: a docstring that does not contain the complete three-field
`Trigger:` pattern yields `trigger = none`; the produced Filter's trigger
field is exactly the trigger extraction of its class docstring; and a
present trigger always has all three fields filled with non-empty
(whitespace-free) tokens — never a partially-filled trigger object. -/
theorem filter_trigger_complete :
    (∀ ds : String, ¬ containsTriggerPattern ds.data → extractTrigger ds = none) ∧
    (∀ (filePath ref now : String) (j : Nat) (cn : String) (cls : List String),
      (buildFilter filePath ref now j cn cls).trigger = extractTrigger (classDocstring cls)) ∧
    (∀ (content filePath ref now : String) (f : Filter) (t : Trigger),
      f ∈ extractFilterClasses content filePath ref now → f.trigger = some t →
      t.repository ≠ "" ∧ t.path ≠ "" ∧ t.function ≠ "") := by
  refine ⟨?_, fun _ _ _ _ _ _ => rfl, ?_⟩
  · intro ds hnc
    cases h : extractTrigger ds with
    | none => rfl
    | some t => exact absurd (triggerScan_sound h).1 hnc
  · intro content fp ref now f t hf ht
    obtain ⟨j, cn, cls, rfl⟩ := mem_extractFilterClasses hf
    have h' : extractTrigger (classDocstring cls) = some t := ht
    obtain ⟨_, h1, h2, h3⟩ := triggerScan_sound h'
    exact ⟨fun he => h1 (congrArg String.data he), fun he => h2 (congrArg String.data he),
      fun he => h3 (congrArg String.data he)⟩

/-- Witness for `filter_trigger_complete`: the filter extracted from a
concrete class whose docstring carries a complete `Trigger:` block has all
three trigger fields non-empty. -/
theorem filter_trigger_complete_witness :
    (⟨"r/p", "a.py", "f"⟩ : Trigger).repository ≠ "" ∧
    (⟨"r/p", "a.py", "f"⟩ : Trigger).path ≠ "" ∧
    (⟨"r/p", "a.py", "f"⟩ : Trigger).function ≠ "" :=
  filter_trigger_complete.2.2
    "class A(OpenEdxPublicFilter):\n    \"\"\"\n    Trigger:\n    - Repository: r/p\n    - Path: a.py\n    - Function or Method: f\n    \"\"\""
    "fp" "rf" "tm"
    ⟨"A", "org.openedx.A", "A", "A",
      "Trigger:\n    - Repository: r/p\n    - Path: a.py\n    - Function or Method: f",
      "https://github.com/openedx/openedx-filters", "fp",
      "https://github.com/openedx/openedx-filters/blob/rf/fp#L1",
      [], [], [], some ⟨"r/p", "a.py", "f"⟩, "tm"⟩
    ⟨"r/p", "a.py", "f"⟩ (by decide) (by decide)

end S2P
